import Mathlib

/-!
Verification development for the `aggregate-s3-logs` repository.

The program compacts many small S3 log objects into per-day gzip archives.
We give a shallow embedding of its core functions
(`aggregate.py`: `concatenate_files`, `process_queue`, `process_group`,
`group_s3_items_by_day`, `aggregate_s3_logs`; `s3_client.py`: `split`,
`_delete_objects_sync`) and prove the specified properties about them.

Byte strings are modelled as `List Nat` (each entry a byte value 0..255).
The gzip codec itself is external to the program, so decompression is a
parameter `gunzip : Bytes → Bytes` wherever the code calls `gzip.open`;
likewise SHA-1 is a parameter `hashFn`.  The gzip-compressing output stream
of `concatenate_files` is modelled by the byte sequence written into it,
i.e. by the decompressed content of the produced archive.
-/

/-- Byte strings: lists of byte values. -/
abbrev Bytes := List Nat

/-- ASCII bytes of `'# file: '`, the head of a provenance marker line. -/
def markerHead : Bytes := [35, 32, 102, 105, 108, 101, 58, 32]

/-- `'# file: {key}\n'.encode('UTF-8')` for a key given by its UTF-8 bytes
(aggregate.py line 134). -/
def markerBytes (key : Bytes) : Bytes := markerHead ++ key ++ [10]

/-- The gzip magic bytes `b'\x1f\x8b'` (aggregate.py line 141). -/
def gzipMagic : Bytes := [0x1f, 0x8b]

/-- `peek.decode('ascii')` succeeds iff every byte is below 128. -/
def isAscii (l : Bytes) : Bool := l.all (fun c => c < 128)

/-- The copy loop of `concatenate_files` (aggregate.py lines 151-156):
`while True: chunk = f_src.read(65536); if chunk == b'': break;
f_res.write(chunk); insert_newline = not chunk.endswith(b'\n')`.
`out` is the byte stream written so far, `src` the bytes still unread from
the source, and the returned flag is the final `insert_newline`. -/
def copyLoop (out : Bytes) (src : Bytes) (insertNl : Bool) : Bytes × Bool :=
  if _h : src = [] then (out, insertNl)
  else
    copyLoop (out ++ src.take 65536) (src.drop 65536)
      ((src.take 65536).getLast? != some 10)
termination_by src.length
decreasing_by
  have hp : 0 < src.length := List.length_pos.mpr _h
  simp only [List.length_drop]
  omega

theorem copyLoop_eq_aux (n : Nat) : ∀ (src : Bytes), src.length ≤ n →
    ∀ (out : Bytes) (b : Bool),
    copyLoop out src b =
      (out ++ src, if src = [] then b else (src.getLast? != some 10)) := by
  induction n with
  | zero =>
    intro src hle out b
    have h0 : src = [] := List.eq_nil_of_length_eq_zero (Nat.le_zero.mp hle)
    rw [copyLoop]
    simp [h0]
  | succ n ih =>
    intro src hle out b
    rw [copyLoop]
    by_cases h : src = []
    · simp [h]
    · have hp : 0 < src.length := List.length_pos.mpr h
      rw [dif_neg h]
      have hdlen : (src.drop 65536).length ≤ n := by
        simp only [List.length_drop]; omega
      rw [ih _ hdlen]
      by_cases hd : src.drop 65536 = []
      · have hlen : src.length ≤ 65536 := by
          have hld := List.length_drop 65536 src
          rw [hd] at hld
          simp only [List.length_nil] at hld
          omega
        have htake : src.take 65536 = src := List.take_of_length_le hlen
        simp [hd, htake, h]
      · have hsplit : src.take 65536 ++ src.drop 65536 = src :=
          List.take_append_drop 65536 src
        have hlast : src.getLast? = (src.drop 65536).getLast? := by
          conv_lhs => rw [← hsplit]
          exact List.getLast?_append_of_ne_nil _ hd
        simp only [hd, h, if_neg, ite_false, hlast, Prod.mk.injEq, and_true]
        rw [List.append_assoc, hsplit]

/-- Closed form of the copy loop: it writes the whole source and, when the
source is non-empty, leaves `insert_newline` set iff the source's final byte
is not a newline. -/
theorem copyLoop_eq (out src : Bytes) (b : Bool) :
    copyLoop out src b =
      (out ++ src, if src = [] then b else (src.getLast? != some 10)) :=
  copyLoop_eq_aux src.length src (Nat.le_refl _) out b

/-- The body of `concatenate_files` (aggregate.py lines 127-159): iterate over
the `(s3_key, downloaded bytes)` pairs, write a separator newline when the
previous source did not end in one, write the provenance marker, then copy the
source (decompressed via `gunzip` when its first two bytes are the gzip magic,
verbatim when its first 90 bytes decode as ASCII, raising otherwise).
The error value is the offending source key. -/
def concatFilesLoop (gunzip : Bytes → Bytes) :
    List (Bytes × Bytes) → Bytes → Bool → Except Bytes Bytes
  | [], out, _ => .ok out
  | (key, raw) :: rest, out, insertNl =>
    let out1 := (if insertNl then out ++ [10] else out) ++ markerBytes key
    if raw.take 2 = gzipMagic then
      let r := copyLoop out1 (gunzip raw) false
      concatFilesLoop gunzip rest r.1 r.2
    else if isAscii (raw.take 90) then
      let r := copyLoop out1 raw false
      concatFilesLoop gunzip rest r.1 r.2
    else .error key

/-- `concatenate_files(s3_keys, download_paths, f_res)`: files are given as
`(s3_key, raw file bytes)` pairs in submission order; the result is the byte
stream written to `f_res` (the decompressed content of the archive). -/
def concatenate_files (gunzip : Bytes → Bytes) (files : List (Bytes × Bytes)) :
    Except Bytes Bytes :=
  concatFilesLoop gunzip files [] false

/-- A source file accepted by `concatenate_files`: its first two bytes are the
gzip magic, or its first 90 bytes are plain ASCII. -/
def wellFormed (raw : Bytes) : Prop :=
  raw.take 2 = gzipMagic ∨ isAscii (raw.take 90) = true

instance (raw : Bytes) : Decidable (wellFormed raw) := by
  unfold wellFormed; infer_instance

/-- A source that is neither gzip (by magic) nor ASCII in its first 90 bytes. -/
def badPeek (raw : Bytes) : Prop :=
  raw.take 2 ≠ gzipMagic ∧ isAscii (raw.take 90) = false

instance (raw : Bytes) : Decidable (badPeek raw) := by
  unfold badPeek; infer_instance

/-- The bytes `concatenate_files` streams for one source: the gzip-decompressed
content when the file starts with the gzip magic, the raw bytes otherwise. -/
def fileContent (gunzip : Bytes → Bytes) (raw : Bytes) : Bytes :=
  if raw.take 2 = gzipMagic then gunzip raw else raw

/-- The archive format the code actually produces: for each source its marker
line then its content, with a single `\n` separator before the next marker
exactly when the content is non-empty and does not end in `\n`. -/
def archiveAmended (gunzip : Bytes → Bytes) : List (Bytes × Bytes) → Bytes
  | [] => []
  | (key, raw) :: rest =>
    let c := fileContent gunzip raw
    markerBytes key ++ c ++
      (if rest ≠ [] ∧ c ≠ [] ∧ c.getLast? ≠ some 10 then [10] else []) ++
      archiveAmended gunzip rest

/-- The archive format in the words of the round-trip claim: for each source
its marker line then its content, with a single `\n` separator before the next
marker whenever the content does not already end in `\n` (an empty content
does not end in `\n`). -/
def specArchive (gunzip : Bytes → Bytes) : List (Bytes × Bytes) → Bytes
  | [] => []
  | (key, raw) :: rest =>
    let c := fileContent gunzip raw
    markerBytes key ++ c ++
      (if rest ≠ [] ∧ c.getLast? ≠ some 10 then [10] else []) ++
      specArchive gunzip rest

theorem concatStep_sep {α : Type} [DecidableEq α] (c : Bytes) (rest : List α) :
    (if (if c = [] then false else (c.getLast? != some 10)) = true ∧ rest ≠ []
     then ([10] : Bytes) else []) =
    (if rest ≠ [] ∧ c ≠ [] ∧ c.getLast? ≠ some 10 then [10] else []) := by
  by_cases hc : c = [] <;> by_cases hr : rest = [] <;> simp [hc, hr]

theorem concatFilesLoop_eq (gunzip : Bytes → Bytes) :
    ∀ (files : List (Bytes × Bytes)), (∀ p ∈ files, wellFormed p.2) →
    ∀ (out : Bytes) (insertNl : Bool),
    concatFilesLoop gunzip files out insertNl =
      .ok (out ++ (if insertNl ∧ files ≠ [] then [10] else []) ++
           archiveAmended gunzip files) := by
  intro files
  induction files with
  | nil => intro _ out insertNl; simp [concatFilesLoop, archiveAmended]
  | cons p rest ih =>
    intro hwf out insertNl
    obtain ⟨key, raw⟩ := p
    have hrest : ∀ q ∈ rest, wellFormed q.2 :=
      fun q hq => hwf q (List.mem_cons_of_mem _ hq)
    by_cases hgz : raw.take 2 = gzipMagic
    · rw [concatFilesLoop, if_pos hgz, copyLoop_eq, ih hrest]
      apply congrArg
      dsimp only
      rw [concatStep_sep]
      by_cases hi : insertNl <;>
        simp [archiveAmended, fileContent, hgz, hi, List.append_assoc]
    · have hascii : isAscii (raw.take 90) = true := by
        rcases hwf (key, raw) (List.mem_cons_self _ _) with h | h
        · exact absurd h hgz
        · exact h
      rw [concatFilesLoop, if_neg hgz, if_pos hascii, copyLoop_eq, ih hrest]
      apply congrArg
      dsimp only
      rw [concatStep_sep]
      by_cases hi : insertNl <;>
        simp [archiveAmended, fileContent, hgz, hi, List.append_assoc]

/-- On well-formed inputs `concatenate_files` succeeds and produces exactly the
`archiveAmended` format. -/
theorem concatenate_files_eq (gunzip : Bytes → Bytes)
    (files : List (Bytes × Bytes)) (hwf : ∀ p ∈ files, wellFormed p.2) :
    concatenate_files gunzip files = .ok (archiveAmended gunzip files) := by
  rw [concatenate_files, concatFilesLoop_eq gunzip files hwf]
  simp

theorem markerBytes_getLast? (key : Bytes) :
    (markerBytes key).getLast? = some 10 := by
  rw [markerBytes]
  exact List.getLast?_concat _

theorem markerBytes_ne_nil (key : Bytes) : markerBytes key ≠ [] := by
  simp [markerBytes, markerHead]

theorem archiveAmended_ne_nil (gunzip : Bytes → Bytes)
    (p : Bytes × Bytes) (rest : List (Bytes × Bytes)) :
    archiveAmended gunzip (p :: rest) ≠ [] := by
  obtain ⟨key, raw⟩ := p
  rw [archiveAmended]
  simp [markerBytes_ne_nil]

theorem archiveAmended_getLast? (gunzip : Bytes → Bytes) :
    ∀ (files : List (Bytes × Bytes)) (key raw : Bytes),
    files.getLast? = some (key, raw) →
    (archiveAmended gunzip files).getLast? =
      (if fileContent gunzip raw = [] then some 10
       else (fileContent gunzip raw).getLast?) := by
  intro files
  induction files with
  | nil => intro key raw h; simp at h
  | cons p rest ih =>
    intro key raw h
    by_cases hr : rest = []
    · subst hr
      simp only [List.getLast?_singleton, Option.some.injEq] at h
      subst h
      have h0 : archiveAmended gunzip ([] : List (Bytes × Bytes)) = [] := rfl
      rw [archiveAmended]
      simp only [ne_eq, not_true_eq_false, false_and, and_false, if_false,
        ite_false, h0, List.append_nil]
      by_cases hc : fileContent gunzip raw = []
      · simp [hc, markerBytes_getLast?]
      · rw [if_neg hc, List.getLast?_append_of_ne_nil _ hc]
    · obtain ⟨q, rest', hq⟩ : ∃ q rest', rest = q :: rest' := by
        cases rest with
        | nil => exact absurd rfl hr
        | cons q rest' => exact ⟨q, rest', rfl⟩
      have hlast : rest.getLast? = some (key, raw) := by
        rw [← h, hq, List.getLast?_cons_cons]
      obtain ⟨k0, r0⟩ := p
      rw [archiveAmended]
      have hne : archiveAmended gunzip rest ≠ [] := by
        rw [hq]; exact archiveAmended_ne_nil gunzip q rest'
      have hne2 : (if rest ≠ [] ∧ fileContent gunzip r0 ≠ [] ∧
          (fileContent gunzip r0).getLast? ≠ some 10 then ([10] : Bytes)
          else []) ++ archiveAmended gunzip rest ≠ [] :=
        List.append_ne_nil_of_right_ne_nil _ hne
      have hne3 : fileContent gunzip r0 ++
          ((if rest ≠ [] ∧ fileContent gunzip r0 ≠ [] ∧
            (fileContent gunzip r0).getLast? ≠ some 10 then ([10] : Bytes)
            else []) ++ archiveAmended gunzip rest) ≠ [] :=
        List.append_ne_nil_of_right_ne_nil _ hne2
      rw [List.append_assoc, List.append_assoc,
        List.getLast?_append_of_ne_nil _ hne3,
        List.getLast?_append_of_ne_nil _ hne2,
        List.getLast?_append_of_ne_nil _ hne]
      exact ih key raw hlast

theorem archiveAmended_append (gunzip : Bytes → Bytes) :
    ∀ (pre files2 : List (Bytes × Bytes)),
    ∃ p, archiveAmended gunzip (pre ++ files2) = p ++ archiveAmended gunzip files2 := by
  intro pre
  induction pre with
  | nil => intro files2; exact ⟨[], rfl⟩
  | cons x xs ih =>
    intro files2
    obtain ⟨key, raw⟩ := x
    obtain ⟨p, hp⟩ := ih files2
    rw [List.cons_append, archiveAmended, hp]
    exact ⟨markerBytes key ++ fileContent gunzip raw ++
      (if xs ++ files2 ≠ [] ∧ fileContent gunzip raw ≠ [] ∧
        (fileContent gunzip raw).getLast? ≠ some 10 then [10] else []) ++ p,
      by simp [List.append_assoc]⟩

/-- C10: the Concatenator never appends a separator newline after the final
source: on any non-empty well-formed source list the archive ends in a newline
iff the final source's content ends in a newline or is empty (in which case the
archive ends with that source's marker line); and an empty source never causes
a separator before the following provenance line, whose marker immediately
follows the empty source's own marker. -/
theorem C10_no_trailing_separator (gunzip : Bytes → Bytes)
    (files : List (Bytes × Bytes)) (hwf : ∀ p ∈ files, wellFormed p.2) :
    ∃ out, concatenate_files gunzip files = .ok out ∧
      (∀ key raw, files.getLast? = some (key, raw) →
        (out.getLast? = some 10 ↔
          (fileContent gunzip raw = [] ∨
           (fileContent gunzip raw).getLast? = some 10))) ∧
      (∀ pre k raw k2 raw2 rest,
        files = pre ++ (k, raw) :: (k2, raw2) :: rest →
        fileContent gunzip raw = [] →
        ∃ p q, out = p ++ markerBytes k ++ markerBytes k2 ++ q) := by
  refine ⟨archiveAmended gunzip files, concatenate_files_eq gunzip files hwf,
    ?_, ?_⟩
  · intro key raw hlast
    rw [archiveAmended_getLast? gunzip files key raw hlast]
    by_cases hc : fileContent gunzip raw = []
    · simp [hc]
    · simp [hc]
  · intro pre k raw k2 raw2 rest hsplit hempty
    obtain ⟨p, hp⟩ := archiveAmended_append gunzip pre ((k, raw) :: (k2, raw2) :: rest)
    rw [hsplit, hp, archiveAmended, archiveAmended]
    refine ⟨p, fileContent gunzip raw2 ++
      (if rest ≠ [] ∧ fileContent gunzip raw2 ≠ [] ∧
          (fileContent gunzip raw2).getLast? ≠ some 10 then [10] else []) ++
      archiveAmended gunzip rest, ?_⟩
    simp [hempty, List.append_assoc]

/-- C10 witness: a concrete two-source run in which the first source is empty;
the archive does not end in a newline (the last source does not) and the two
marker lines are adjacent. -/
theorem C10_no_trailing_separator_witness :
    (∀ p ∈ [(([65] : Bytes), ([] : Bytes)), (([66] : Bytes), ([97] : Bytes))],
      wellFormed p.2) ∧
    ∃ out, concatenate_files (fun l => l) [([65], []), ([66], [97])] = .ok out ∧
      out.getLast? ≠ some 10 ∧
      ∃ p q, out = p ++ markerBytes [65] ++ markerBytes [66] ++ q := by
  refine ⟨by decide, ?_⟩
  obtain ⟨out, h1, h2, h3⟩ :=
    C10_no_trailing_separator (fun l => l) [([65], []), ([66], [97])] (by decide)
  refine ⟨out, h1, ?_, ?_⟩
  · intro hl
    have := (h2 [66] [97] (by decide)).mp hl
    revert this
    decide
  · exact h3 [] [65] [] [66] [97] [] rfl (by decide)

/-- C1 (amended): on every well-formed source list (each source gzip by magic
or plain ASCII in its first 90 bytes), the decompressed archive consists, for
each source in order, of its `# file: <key>` marker line followed by its exact
decompressed/raw bytes, with one `\n` separator inserted before the next
marker exactly when the source's content is non-empty and does not end in a
newline. -/
theorem C1_roundtrip_amended (gunzip : Bytes → Bytes)
    (files : List (Bytes × Bytes)) (hwf : ∀ p ∈ files, wellFormed p.2) :
    concatenate_files gunzip files = .ok (archiveAmended gunzip files) :=
  concatenate_files_eq gunzip files hwf

/-- C1 witness: the amended round-trip at a concrete one-source input. -/
theorem C1_roundtrip_amended_witness :
    (∀ p ∈ [(([65] : Bytes), ([97] : Bytes))], wellFormed p.2) ∧
    concatenate_files (fun l => l) [([65], [97])] =
      .ok (archiveAmended (fun l => l) [([65], [97])]) :=
  ⟨by decide, C1_roundtrip_amended (fun l => l) [([65], [97])] (by decide)⟩

/-- C1 counterexample: with an empty first source (valid ASCII, so the claim's
precondition holds) the code inserts no separator, while the claim as stated
demands one (an empty content does not end in `\n`); the produced archive
differs from the claimed format. -/
theorem C1_counterexample :
    (∀ p ∈ [(([65] : Bytes), ([] : Bytes)), (([66] : Bytes), ([97] : Bytes))],
      wellFormed p.2) ∧
    concatenate_files (fun l => l) [([65], []), ([66], [97])] ≠
      .ok (specArchive (fun l => l) [([65], []), ([66], [97])]) := by
  refine ⟨by decide, ?_⟩
  rw [concatenate_files_eq _ _ (by decide)]
  intro hcontra
  have h := Except.ok.inj hcontra
  revert h
  decide

/-- One worker of `process_queue` (aggregate.py lines 66-69) run alone:
`while queue: f = queue.pop(); await f()` — `list.pop()` removes and runs the
last element; the result is the execution order. -/
def worker_run {α : Type} : List α → List α
  | [] => []
  | x :: xs =>
    (x :: xs).getLast (List.cons_ne_nil x xs) :: worker_run (x :: xs).dropLast
termination_by q => q.length
decreasing_by
  simp only [List.length_dropLast, List.length_cons]
  omega

/-- `process_queue` (aggregate.py lines 63-69) with a single worker: the shared
list is first replaced by `list(reversed(queue))`, then the worker pops from
its end until empty.  Returns the order in which submitted tasks run. -/
def process_queue_single {α : Type} (tasks : List α) : List α :=
  worker_run tasks.reverse

theorem worker_run_eq_aux {α : Type} (n : Nat) : ∀ (q : List α),
    q.length ≤ n → worker_run q = q.reverse := by
  induction n with
  | zero =>
    intro q hle
    have h0 : q = [] := List.eq_nil_of_length_eq_zero (Nat.le_zero.mp hle)
    subst h0
    rw [worker_run]
    rfl
  | succ n ih =>
    intro q hle
    cases q with
    | nil => rw [worker_run]; rfl
    | cons x xs =>
      rw [worker_run]
      have hlen : (x :: xs).dropLast.length ≤ n := by
        simp only [List.length_dropLast, List.length_cons] at *
        omega
      rw [ih _ hlen]
      conv_rhs => rw [← List.dropLast_append_getLast (List.cons_ne_nil x xs)]
      rw [List.reverse_append]
      rfl

theorem worker_run_eq {α : Type} (q : List α) : worker_run q = q.reverse :=
  worker_run_eq_aux q.length q (Nat.le_refl _)

/-- C2 (amended): `process_queue` reverses the submitted list before workers
pop from the end, so with a single worker the tasks run in submission order
(FIFO), not in reverse of submission order. -/
theorem C2_queue_order_amended {α : Type} (tasks : List α) :
    process_queue_single tasks = tasks := by
  rw [process_queue_single, worker_run_eq, List.reverse_reverse]

/-- C2 counterexample: with a single worker the two submitted tasks run in
submission order `[0, 1]`, not in the claimed reverse order `[1, 0]`. -/
theorem C2_counterexample :
    process_queue_single [0, 1] = [0, 1] ∧
    process_queue_single [0, 1] ≠ List.reverse [0, 1] := by
  constructor
  · rw [process_queue_single, worker_run_eq, List.reverse_reverse]
  · rw [process_queue_single, worker_run_eq, List.reverse_reverse]
    decide

/-- `key.rsplit('/', 1)[0]`: the bytes before the last `'/'` (byte 47), or the
whole key when it contains none (aggregate.py line 105). -/
def dirname (key : Bytes) : Bytes :=
  if 47 ∈ key then ((key.reverse.dropWhile (fun c => c ≠ 47)).drop 1).reverse
  else key

/-- `key.rsplit('/', 1)[-1]` / `key.split('/')[-1]`: the segment after the
last `'/'`, or the whole key when it contains none. -/
def lastSegment (key : Bytes) : Bytes :=
  (key.reverse.takeWhile (fun c => c ≠ 47)).reverse

/-- ASCII bytes of `'aggregated'`. -/
def aggregatedBytes : Bytes := [97, 103, 103, 114, 101, 103, 97, 116, 101, 100]

/-- `'{}-aggregated-{}.gz'.format(group_id, result_hash[:7])`
(aggregate.py line 104); `hash7` is `result_hash[:7]`. -/
def resultFilename (group_id : Bytes) (hash7 : Bytes) : Bytes :=
  group_id ++ [45] ++ aggregatedBytes ++ [45] ++ hash7 ++ [46, 103, 122]

/-- `s3_keys[0].rsplit('/', 1)[0] + '/' + result_filename`
(aggregate.py line 105). -/
def resultKey (firstKey group_id hash7 : Bytes) : Bytes :=
  dirname firstKey ++ [47] ++ resultFilename group_id hash7

/-- Store operations a group's processing can perform, in order. -/
inductive GEvent where
  | download : Bytes → GEvent
  | upload : Bytes → GEvent
  | delete : List Bytes → GEvent
deriving DecidableEq

/-- The failure cause wrapped by `process_group`'s
`Exception('Group {} failed: {!r}')` (aggregate.py line 118). -/
inductive GFail where
  | downloadFailed : Bytes → GFail
  | notAscii : Bytes → GFail
  | uploadFailed : Bytes → GFail
deriving DecidableEq

/-- The download fan-out of `process_group` (aggregate.py lines 96-99):
each key's download is attempted (modelled in key order); a failing download
(per the `downloadOk` environment) aborts the rest, as the queue's
`FIRST_EXCEPTION` handling cancels pending tasks.  Returns the issued download
events and the first failing key, if any. -/
def runDownloads (downloadOk : Bytes → Bool) :
    List Bytes → List GEvent × Option Bytes
  | [] => ([], none)
  | k :: rest =>
    if downloadOk k then
      (.download k :: (runDownloads downloadOk rest).1,
       (runDownloads downloadOk rest).2)
    else ([.download k], some k)

/-- `process_group` (aggregate.py lines 82-124) as a trace function: given the
group id and member keys, the stop flag, the force flag, and an environment
fixing each download's outcome (`downloadOk`), the downloaded bytes of each
key (`contentOf`), the upload outcome (`uploadOk`), the gzip codec and the
hash, it returns the store events issued in order and the result
(`.ok` or the wrapped group failure). -/
def process_group (gunzip hashFn : Bytes → Bytes) (contentOf : Bytes → Bytes)
    (group_id : Bytes) (s3_keys : List Bytes) (stopSet force : Bool)
    (downloadOk : Bytes → Bool) (uploadOk : Bool) :
    List GEvent × Except (Bytes × GFail) Unit :=
  if stopSet then ([], .ok ())
  else
    match (runDownloads downloadOk s3_keys).2 with
    | some k =>
      ((runDownloads downloadOk s3_keys).1, .error (group_id, .downloadFailed k))
    | none =>
      match concatenate_files gunzip (s3_keys.map (fun k => (k, contentOf k))) with
      | .error k =>
        ((runDownloads downloadOk s3_keys).1, .error (group_id, .notAscii k))
      | .ok out =>
        if force then
          if uploadOk then
            ((runDownloads downloadOk s3_keys).1 ++
              [.upload (resultKey (s3_keys.headD []) group_id ((hashFn out).take 7)),
               .delete s3_keys], .ok ())
          else
            ((runDownloads downloadOk s3_keys).1 ++
              [.upload (resultKey (s3_keys.headD []) group_id ((hashFn out).take 7))],
             .error (group_id,
               .uploadFailed (resultKey (s3_keys.headD []) group_id ((hashFn out).take 7))))
        else ((runDownloads downloadOk s3_keys).1, .ok ())

theorem runDownloads_events (downloadOk : Bytes → Bool) :
    ∀ (keys : List Bytes), ∀ e ∈ (runDownloads downloadOk keys).1,
      ∃ k, e = .download k := by
  intro keys
  induction keys with
  | nil => intro e he; simp [runDownloads] at he
  | cons k rest ih =>
    intro e he
    rw [runDownloads] at he
    by_cases hk : downloadOk k
    · rw [if_pos hk] at he
      simp only [List.mem_cons] at he
      rcases he with he | he
      · exact ⟨k, he⟩
      · exact ih e he
    · rw [if_neg hk] at he
      simp only [List.mem_singleton] at he
      exact ⟨k, he⟩

theorem runDownloads_allOk (downloadOk : Bytes → Bool)
    (hall : ∀ k, downloadOk k = true) :
    ∀ (keys : List Bytes),
      runDownloads downloadOk keys = (keys.map GEvent.download, none) := by
  intro keys
  induction keys with
  | nil => rfl
  | cons k rest ih =>
    rw [runDownloads, if_pos (hall k), ih]
    rfl

theorem no_delete_in_downloads (downloadOk : Bytes → Bool) (keys : List Bytes) :
    ∀ ks, GEvent.delete ks ∉ (runDownloads downloadOk keys).1 := by
  intro ks hmem
  obtain ⟨k, hk⟩ := runDownloads_events downloadOk keys _ hmem
  exact GEvent.noConfusion hk

theorem no_upload_in_downloads (downloadOk : Bytes → Bool) (keys : List Bytes) :
    ∀ rk, GEvent.upload rk ∉ (runDownloads downloadOk keys).1 := by
  intro rk hmem
  obtain ⟨k, hk⟩ := runDownloads_events downloadOk keys _ hmem
  exact GEvent.noConfusion hk

theorem wellFormed_or_badPeek (raw : Bytes) : wellFormed raw ∨ badPeek raw := by
  by_cases hgz : raw.take 2 = gzipMagic
  · exact Or.inl (Or.inl hgz)
  · cases hascii : isAscii (raw.take 90) with
    | true => exact Or.inl (Or.inr hascii)
    | false => exact Or.inr ⟨hgz, hascii⟩

theorem concat_error_of_bad (gunzip : Bytes → Bytes) :
    ∀ (files : List (Bytes × Bytes)), (∃ p ∈ files, badPeek p.2) →
    ∃ key raw, (key, raw) ∈ files ∧ badPeek raw ∧
      ∀ out flag, concatFilesLoop gunzip files out flag = .error key := by
  intro files
  induction files with
  | nil => intro h; simp at h
  | cons p rest ih =>
    intro h
    obtain ⟨k0, r0⟩ := p
    by_cases hb : badPeek r0
    · refine ⟨k0, r0, List.mem_cons_self _ _, hb, fun out flag => ?_⟩
      rw [concatFilesLoop, if_neg hb.1, if_neg (by simp [hb.2])]
    · have hwf0 : wellFormed r0 := (wellFormed_or_badPeek r0).resolve_right hb
      have hrest : ∃ q ∈ rest, badPeek q.2 := by
        obtain ⟨q, hq, hbq⟩ := h
        rcases List.mem_cons.mp hq with rfl | hq'
        · exact absurd hbq hb
        · exact ⟨q, hq', hbq⟩
      obtain ⟨key, raw, hmem, hbad, herr⟩ := ih hrest
      refine ⟨key, raw, List.mem_cons_of_mem _ hmem, hbad, fun out flag => ?_⟩
      by_cases hgz : r0.take 2 = gzipMagic
      · rw [concatFilesLoop, if_pos hgz]
        exact herr _ _
      · have hascii : isAscii (r0.take 90) = true := by
          rcases hwf0 with h1 | h1
          · exact absurd h1 hgz
          · exact h1
        rw [concatFilesLoop, if_neg hgz, if_pos hascii]
        exact herr _ _

/-- C3: with force, a group's source objects are deleted only strictly after
the upload of the replacement archive succeeded: any delete event in the trace
is the final event, immediately preceded by the upload, with only downloads
before them and a successful result; and whenever any step fails the trace
contains no delete event at all. -/
theorem C3_delete_only_after_upload (gunzip hashFn contentOf : Bytes → Bytes)
    (group_id : Bytes) (s3_keys : List Bytes) (stopSet : Bool)
    (downloadOk : Bytes → Bool) (uploadOk : Bool)
    (evs : List GEvent) (res : Except (Bytes × GFail) Unit)
    (h : process_group gunzip hashFn contentOf group_id s3_keys stopSet true
          downloadOk uploadOk = (evs, res)) :
    (∀ ks, GEvent.delete ks ∈ evs → uploadOk = true ∧ res = .ok () ∧
      ∃ pre rk, evs = pre ++ [.upload rk, .delete ks] ∧
        ∀ e ∈ pre, ∃ k, e = .download k) ∧
    (∀ err, res = .error err → ∀ ks, GEvent.delete ks ∉ evs) := by
  rw [process_group] at h
  by_cases hstop : stopSet
  · rw [if_pos hstop] at h
    injection h with h1 h2
    subst h1; subst h2
    exact ⟨fun ks hks => absurd hks (by simp),
           fun err herr => by simp at herr⟩
  · rw [if_neg hstop] at h
    cases hdl : (runDownloads downloadOk s3_keys).2 with
    | some k =>
      rw [hdl] at h
      injection h with h1 h2
      subst h1; subst h2
      exact ⟨fun ks hks => absurd hks (no_delete_in_downloads _ _ ks),
             fun err _ ks => no_delete_in_downloads _ _ ks⟩
    | none =>
      rw [hdl] at h
      cases hc : concatenate_files gunzip (s3_keys.map (fun k => (k, contentOf k))) with
      | error k =>
        rw [hc] at h
        injection h with h1 h2
        subst h1; subst h2
        exact ⟨fun ks hks => absurd hks (no_delete_in_downloads _ _ ks),
               fun err _ ks => no_delete_in_downloads _ _ ks⟩
      | ok out =>
        rw [hc] at h
        dsimp only at h
        by_cases hup : uploadOk
        · rw [if_pos hup] at h
          injection h with h1 h2
          subst h1; subst h2
          refine ⟨fun ks hks => ?_, fun err herr => by simp at herr⟩
          rcases List.mem_append.mp hks with hin | hin
          · exact absurd hin (no_delete_in_downloads _ _ ks)
          · rcases List.mem_cons.mp hin with heq | hin2
            · exact GEvent.noConfusion heq
            · rcases List.mem_singleton.mp hin2 with heq2
              have hks_eq : ks = s3_keys := by
                injection heq2
              refine ⟨hup, rfl, (runDownloads downloadOk s3_keys).1,
                resultKey (s3_keys.headD []) group_id ((hashFn out).take 7), ?_,
                runDownloads_events downloadOk s3_keys⟩
              rw [hks_eq]
        · rw [if_neg hup] at h
          injection h with h1 h2
          subst h1; subst h2
          refine ⟨fun ks hks => ?_, fun err _ ks hks => ?_⟩
          · rcases List.mem_append.mp hks with hin | hin
            · exact absurd hin (no_delete_in_downloads _ _ ks)
            · rcases List.mem_singleton.mp hin with heq
              exact GEvent.noConfusion heq
          · rcases List.mem_append.mp hks with hin | hin
            · exact absurd hin (no_delete_in_downloads _ _ ks)
            · rcases List.mem_singleton.mp hin with heq
              exact GEvent.noConfusion heq

/-- C3 witness: an empty group processed with force, all steps succeeding; the
trace is exactly `[upload, delete]`, so applying the theorem to the delete
event recovers that the upload immediately precedes it. -/
theorem C3_delete_only_after_upload_witness :
    ∃ evs res, process_group (fun l => l) (fun _ => []) (fun _ => [])
        [103] [] false true (fun _ => true) true = (evs, res) ∧
      GEvent.delete [] ∈ evs ∧
      ∃ pre rk, evs = pre ++ [.upload rk, .delete []] ∧
        ∀ e ∈ pre, ∃ k, e = .download k := by
  have h : process_group (fun l => l) (fun _ => []) (fun _ => [])
      [103] [] false true (fun _ => true) true =
      ([.upload (resultKey [] [103] []), .delete []], .ok ()) := by
    rw [process_group]
    rfl
  obtain ⟨hall, -⟩ := C3_delete_only_after_upload (fun l => l) (fun _ => [])
    (fun _ => []) [103] [] false (fun _ => true) true _ _ h
  obtain ⟨hok, hres, pre, rk, hevs, hpre⟩ := hall [] (by rw [h] at *; simp)
  exact ⟨_, _, h, by simp, pre, rk, hevs, hpre⟩

/-- C5: a group containing a source whose first 90 bytes are neither
gzip-magic nor valid ASCII fails (once downloads succeed and processing was
not skipped by the stop signal) with the wrapped `not ASCII` error naming an
offending source key of the group, and its trace contains no upload and no
delete event. -/
theorem C5_bad_source_aborts_group (gunzip hashFn contentOf : Bytes → Bytes)
    (group_id : Bytes) (s3_keys : List Bytes) (force : Bool)
    (downloadOk : Bytes → Bool) (uploadOk : Bool)
    (evs : List GEvent) (res : Except (Bytes × GFail) Unit)
    (hdlok : ∀ k, downloadOk k = true)
    (h : process_group gunzip hashFn contentOf group_id s3_keys false force
          downloadOk uploadOk = (evs, res))
    (hbad : ∃ k ∈ s3_keys, badPeek (contentOf k)) :
    ∃ bk, bk ∈ s3_keys ∧ badPeek (contentOf bk) ∧
      res = .error (group_id, .notAscii bk) ∧
      (∀ ks, GEvent.delete ks ∉ evs) ∧ (∀ rk, GEvent.upload rk ∉ evs) := by
  have hbadfiles : ∃ p ∈ s3_keys.map (fun k => (k, contentOf k)), badPeek p.2 := by
    obtain ⟨k, hk, hbk⟩ := hbad
    exact ⟨(k, contentOf k), List.mem_map.mpr ⟨k, hk, rfl⟩, hbk⟩
  obtain ⟨key, raw, hmem, hbadp, herr⟩ :=
    concat_error_of_bad gunzip (s3_keys.map (fun k => (k, contentOf k))) hbadfiles
  obtain ⟨k', hk', hkeq⟩ := List.mem_map.mp hmem
  have hkey : key = k' := (Prod.mk.injEq _ _ _ _ |>.mp hkeq.symm).1
  have hraw : raw = contentOf k' := (Prod.mk.injEq _ _ _ _ |>.mp hkeq.symm).2
  rw [process_group, if_neg (by simp)] at h
  rw [runDownloads_allOk downloadOk hdlok s3_keys] at h
  dsimp only at h
  have herr2 : concatenate_files gunzip (s3_keys.map (fun k => (k, contentOf k))) =
      .error key := herr [] false
  rw [herr2] at h
  dsimp only at h
  injection h with h1 h2
  subst h1; subst h2
  refine ⟨key, ?_, ?_, rfl, ?_, ?_⟩
  · rw [hkey]; exact hk'
  · rw [hkey, ← hraw]; exact hbadp
  · intro ks hks
    obtain ⟨k0, hk0, hdk⟩ := List.mem_map.mp hks
    exact GEvent.noConfusion hdk
  · intro rk hrk
    obtain ⟨k0, hk0, hdk⟩ := List.mem_map.mp hrk
    exact GEvent.noConfusion hdk

/-- C5 witness: one source whose bytes are not gzip and not ASCII; the group
fails with a `not ASCII` error naming that key and its trace has no upload or
delete. -/
theorem C5_bad_source_aborts_group_witness :
    (∀ k, (fun _ : Bytes => true) k = true) ∧
    (∃ k ∈ [[107]], badPeek ((fun _ : Bytes => ([255, 200] : Bytes)) k)) ∧
    ∃ evs res, process_group (fun l => l) (fun _ => []) (fun _ => [255, 200])
        [103] [[107]] false true (fun _ => true) true = (evs, res) ∧
      ∃ bk, bk ∈ [[107]] ∧
        res = .error ([103], .notAscii bk) ∧ ∀ ks, GEvent.delete ks ∉ evs := by
  refine ⟨fun _ => rfl, ⟨[107], by simp, by decide⟩, ?_⟩
  obtain ⟨bk, hmem, hbad, hres, hnodel, hnoup⟩ :=
    C5_bad_source_aborts_group (fun l => l) (fun _ => []) (fun _ => [255, 200])
      [103] [[107]] true (fun _ => true) true
      (process_group (fun l => l) (fun _ => []) (fun _ => [255, 200])
        [103] [[107]] false true (fun _ => true) true).1
      (process_group (fun l => l) (fun _ => []) (fun _ => [255, 200])
        [103] [[107]] false true (fun _ => true) true).2
      (fun _ => rfl) rfl ⟨[107], by simp, by decide⟩
  exact ⟨_, _, rfl, bk, hmem, hres, hnodel⟩

/-- C9: in dry-run mode (force = false) the group processor performs only
read-side work: its trace never contains an upload or delete event, and when
nothing fails the trace is exactly the member downloads with a successful
result — the store is never mutated. -/
theorem C9_dry_run_no_mutation (gunzip hashFn contentOf : Bytes → Bytes)
    (group_id : Bytes) (s3_keys : List Bytes) (stopSet : Bool)
    (downloadOk : Bytes → Bool) (uploadOk : Bool)
    (evs : List GEvent) (res : Except (Bytes × GFail) Unit)
    (h : process_group gunzip hashFn contentOf group_id s3_keys stopSet false
          downloadOk uploadOk = (evs, res)) :
    (∀ e ∈ evs, ∃ k, e = .download k) ∧
    (stopSet = false → (∀ k, downloadOk k = true) →
      (∀ k ∈ s3_keys, wellFormed (contentOf k)) →
      evs = s3_keys.map GEvent.download ∧ res = .ok ()) := by
  rw [process_group] at h
  by_cases hstop : stopSet
  · rw [if_pos hstop] at h
    injection h with h1 h2
    subst h1; subst h2
    exact ⟨fun e he => absurd he (by simp),
           fun hsf => absurd hstop (by simp [hsf])⟩
  · rw [if_neg hstop] at h
    cases hdl : (runDownloads downloadOk s3_keys).2 with
    | some k =>
      rw [hdl] at h
      dsimp only at h
      injection h with h1 h2
      subst h1; subst h2
      refine ⟨fun e he => runDownloads_events downloadOk s3_keys e he,
              fun _ hall _ => ?_⟩
      rw [runDownloads_allOk downloadOk hall s3_keys] at hdl
      exact absurd hdl (by simp)
    | none =>
      rw [hdl] at h
      cases hc : concatenate_files gunzip (s3_keys.map (fun k => (k, contentOf k))) with
      | error k =>
        rw [hc] at h
        dsimp only at h
        injection h with h1 h2
        subst h1; subst h2
        refine ⟨fun e he => runDownloads_events downloadOk s3_keys e he,
                fun _ hall hwf => ?_⟩
        have : concatenate_files gunzip (s3_keys.map (fun k => (k, contentOf k))) =
            .ok (archiveAmended gunzip (s3_keys.map (fun k => (k, contentOf k)))) := by
          refine concatenate_files_eq gunzip _ ?_
          intro p hp
          obtain ⟨k0, hk0, hpeq⟩ := List.mem_map.mp hp
          rw [← hpeq]
          exact hwf k0 hk0
        rw [hc] at this
        exact absurd this (by simp)
      | ok out =>
        rw [hc] at h
        dsimp only at h
        injection h with h1 h2
        subst h1; subst h2
        refine ⟨fun e he => runDownloads_events downloadOk s3_keys e he,
                fun _ hall _ => ?_⟩
        rw [runDownloads_allOk downloadOk hall s3_keys]
        exact ⟨rfl, rfl⟩

/-- C9 witness: a concrete dry run over one ASCII source performs exactly its
download and succeeds without any upload or delete. -/
theorem C9_dry_run_no_mutation_witness :
    ∃ evs res, process_group (fun l => l) (fun _ => []) (fun _ => [97])
        [103] [[107]] false false (fun _ => true) true = (evs, res) ∧
      evs = [GEvent.download [107]] ∧ res = .ok () ∧
      ∀ e ∈ evs, ∃ k, e = GEvent.download k := by
  obtain ⟨hall, hok⟩ :=
    C9_dry_run_no_mutation (fun l => l) (fun _ => []) (fun _ => [97])
      [103] [[107]] false (fun _ => true) true
      (process_group (fun l => l) (fun _ => []) (fun _ => [97])
        [103] [[107]] false false (fun _ => true) true).1
      (process_group (fun l => l) (fun _ => []) (fun _ => [97])
        [103] [[107]] false false (fun _ => true) true).2
      rfl
  obtain ⟨hevs, hres⟩ := hok rfl (fun _ => rfl) (by decide)
  rw [hevs] at hall
  have hpg : process_group (fun l => l) (fun _ => []) (fun _ => [97])
      [103] [[107]] false false (fun _ => true) true =
      (List.map GEvent.download [[107]], Except.ok ()) := by
    rw [← hevs, ← hres]
  exact ⟨_, _, hpg, rfl, rfl, hall⟩

/-- `split(items, chunk_size)` (s3_client.py lines 149-159): one step of the
accumulation — append the item to the current chunk and flush the chunk when
it reaches `chunk_size`. -/
def splitStep {α : Type} (chunk_size : Nat) (acc : List (List α) × List α)
    (item : α) : List (List α) × List α :=
  if (acc.2 ++ [item]).length ≥ chunk_size then (acc.1 ++ [acc.2 ++ [item]], [])
  else (acc.1, acc.2 ++ [item])

/-- `split` from s3_client.py: fold `splitStep` over the items, then append the
trailing partial chunk when non-empty (`if chunk: chunks.append(chunk)`). -/
def split {α : Type} (items : List α) (chunk_size : Nat) : List (List α) :=
  let r := items.foldl (splitStep chunk_size) ([], [])
  if r.2.isEmpty then r.1 else r.1 ++ [r.2]

theorem split_fold_inv {α : Type} (chunk_size : Nat) (hpos : 0 < chunk_size) :
    ∀ (items : List α) (chunks : List (List α)) (chunk : List α),
    chunk.length < chunk_size →
    (∀ c ∈ chunks, c.length ≤ chunk_size) →
    (items.foldl (splitStep chunk_size) (chunks, chunk)).1.flatten ++
        (items.foldl (splitStep chunk_size) (chunks, chunk)).2 =
      chunks.flatten ++ chunk ++ items ∧
    (items.foldl (splitStep chunk_size) (chunks, chunk)).2.length < chunk_size ∧
    (∀ c ∈ (items.foldl (splitStep chunk_size) (chunks, chunk)).1,
      c.length ≤ chunk_size) := by
  intro items
  induction items with
  | nil =>
    intro chunks chunk hlen hall
    exact ⟨by simp, hlen, hall⟩
  | cons x xs ih =>
    intro chunks chunk hlen hall
    rw [List.foldl_cons]
    by_cases hfull : (chunk ++ [x]).length ≥ chunk_size
    · have hstep : splitStep chunk_size (chunks, chunk) x =
          (chunks ++ [chunk ++ [x]], []) := by
        rw [splitStep, if_pos hfull]
      rw [hstep]
      have hcsize : (chunk ++ [x]).length ≤ chunk_size := by
        simp only [List.length_append, List.length_singleton] at *
        omega
      have hall2 : ∀ c ∈ chunks ++ [chunk ++ [x]], c.length ≤ chunk_size := by
        intro c hc
        rcases List.mem_append.mp hc with hc | hc
        · exact hall c hc
        · rw [List.mem_singleton.mp hc]; exact hcsize
      obtain ⟨h1, h2, h3⟩ := ih (chunks ++ [chunk ++ [x]]) [] hpos hall2
      refine ⟨?_, h2, h3⟩
      rw [h1]
      simp [List.append_assoc]
    · have hstep : splitStep chunk_size (chunks, chunk) x =
          (chunks, chunk ++ [x]) := by
        rw [splitStep, if_neg hfull]
      rw [hstep]
      have hlen2 : (chunk ++ [x]).length < chunk_size := by
        simp only [List.length_append, List.length_singleton] at *
        omega
      obtain ⟨h1, h2, h3⟩ := ih chunks (chunk ++ [x]) hlen2 hall
      refine ⟨?_, h2, h3⟩
      rw [h1]
      simp [List.append_assoc]

theorem split_join {α : Type} (items : List α) (chunk_size : Nat)
    (hpos : 0 < chunk_size) : (split items chunk_size).flatten = items := by
  obtain ⟨h1, h2, h3⟩ := split_fold_inv chunk_size hpos items [] []
    (by simpa using hpos) (by simp)
  by_cases hE : (items.foldl (splitStep chunk_size) ([], [])).2 = []
  · simp only [split]
    rw [hE]
    rw [hE] at h1
    simp only [List.flatten_nil, List.nil_append, List.append_nil] at h1
    simp [h1]
  · have hE' : (items.foldl (splitStep chunk_size) ([], [])).2.isEmpty = false := by
      simp [List.isEmpty_iff, hE]
    simp only [split]
    rw [hE']
    simp only [Bool.false_eq_true, if_false, ite_false]
    rw [List.flatten_append]
    simpa using h1

theorem split_chunk_le {α : Type} (items : List α) (chunk_size : Nat)
    (hpos : 0 < chunk_size) :
    ∀ c ∈ split items chunk_size, c.length ≤ chunk_size := by
  obtain ⟨h1, h2, h3⟩ := split_fold_inv chunk_size hpos items [] []
    (by simpa using hpos) (by simp)
  intro c hc
  simp only [split] at hc
  by_cases hE : (items.foldl (splitStep chunk_size) ([], [])).2 = []
  · rw [hE] at hc
    simp only [List.isEmpty_nil, if_true, ite_true] at hc
    exact h3 c hc
  · have hE' : (items.foldl (splitStep chunk_size) ([], [])).2.isEmpty = false := by
      simp [List.isEmpty_iff, hE]
    rw [hE'] at hc
    simp only [Bool.false_eq_true, if_false, ite_false] at hc
    rcases List.mem_append.mp hc with hc | hc
    · exact h3 c hc
    · rw [List.mem_singleton.mp hc]; omega

/-- Outcome of one `s3_client.delete_objects` call in the environment: a
transport-level exception, or a response whose `Errors` field lists the keys
that individually failed (empty when fully successful). -/
inductive DelOutcome where
  | transportError : DelOutcome
  | okWith : List Bytes → DelOutcome
deriving DecidableEq

/-- Error raised by `_delete_objects_sync`: the re-raised transport error after
the fifth failed attempt, or the `delete_objects returned Errors` exception. -/
inductive DelErr where
  | transport : DelErr
  | perKeyErrors : List Bytes → DelErr
deriving DecidableEq

/-- The retry loop of `_delete_objects_sync` for one chunk (s3_client.py lines
122-146): attempt the call (`outcomes t` is the environment's outcome of
attempt `t`, 1-based); on a transport error re-raise once `try_count >= 5`,
otherwise sleep `1 + 2**try_count` seconds and retry; on a response with a
non-empty `Errors` list raise; otherwise succeed.  Returns the sleep durations
performed and the result. -/
def deleteChunkLoop (outcomes : Nat → DelOutcome) (tryCount : Nat) :
    List Nat × Except DelErr Unit :=
  match outcomes tryCount with
  | .transportError =>
    if _h : tryCount ≥ 5 then ([], .error .transport)
    else
      ((1 + 2 ^ tryCount) :: (deleteChunkLoop outcomes (tryCount + 1)).1,
       (deleteChunkLoop outcomes (tryCount + 1)).2)
  | .okWith errs =>
    if errs.isEmpty then ([], .ok ()) else ([], .error (.perKeyErrors errs))
termination_by 5 - tryCount
decreasing_by
  all_goals omega

/-- The chunk iteration of `_delete_objects_sync` (s3_client.py lines 117-118):
process each chunk in order with the retry loop (`outcomes n` fixes the
attempt outcomes of the `n`-th chunk, 0-based), stopping at the first raised
error. -/
def deleteChunksLoop (outcomes : Nat → Nat → DelOutcome) :
    Nat → List (List Bytes) → List Nat × Except DelErr Unit
  | _, [] => ([], .ok ())
  | n, _chunk :: rest =>
    match (deleteChunkLoop (outcomes n) 1).2 with
    | .error e => ((deleteChunkLoop (outcomes n) 1).1, .error e)
    | .ok _ =>
      ((deleteChunkLoop (outcomes n) 1).1 ++
        (deleteChunksLoop outcomes (n + 1) rest).1,
       (deleteChunksLoop outcomes (n + 1) rest).2)

/-- `_delete_objects_sync(bucket_name, keys)` (s3_client.py lines 111-146):
chunk the keys to the batch limit of 100 and run the retry loop per chunk.
Returns the sleeps performed and the overall result. -/
def delete_objects_sync (outcomes : Nat → Nat → DelOutcome) (keys : List Bytes) :
    List Nat × Except DelErr Unit :=
  deleteChunksLoop outcomes 0 (split keys 100)

theorem deleteChunkLoop_all_transport (outcomes : Nat → DelOutcome)
    (hall : ∀ t, outcomes t = .transportError) :
    deleteChunkLoop outcomes 1 = ([3, 5, 9, 17], .error .transport) := by
  have h5 : deleteChunkLoop outcomes 5 = ([], .error .transport) := by
    rw [deleteChunkLoop, hall 5]
    norm_num
  have h4 : deleteChunkLoop outcomes 4 = ([17], .error .transport) := by
    rw [deleteChunkLoop, hall 4]
    norm_num [h5]
  have h3 : deleteChunkLoop outcomes 3 = ([9, 17], .error .transport) := by
    rw [deleteChunkLoop, hall 3]
    norm_num [h4]
  have h2 : deleteChunkLoop outcomes 2 = ([5, 9, 17], .error .transport) := by
    rw [deleteChunkLoop, hall 2]
    norm_num [h3]
  rw [deleteChunkLoop, hall 1]
  norm_num [h2]

theorem deleteChunksLoop_all_ok (outcomes : Nat → Nat → DelOutcome)
    (hok : ∀ n t, outcomes n t = .okWith []) :
    ∀ (chunks : List (List Bytes)) (n : Nat),
    deleteChunksLoop outcomes n chunks = ([], .ok ()) := by
  intro chunks
  induction chunks with
  | nil => intro n; rfl
  | cons c rest ih =>
    intro n
    have hc : deleteChunkLoop (outcomes n) 1 = ([], .ok ()) := by
      rw [deleteChunkLoop, hok n 1]
      rfl
    rw [deleteChunksLoop, hc, ih (n + 1)]
    rfl

theorem split_ne_nil_of_ne_nil {α : Type} (items : List α) (chunk_size : Nat)
    (hpos : 0 < chunk_size) (hne : items ≠ []) :
    ∃ c rest, split items chunk_size = c :: rest := by
  cases hs : split items chunk_size with
  | nil =>
    have := split_join items chunk_size hpos
    rw [hs] at this
    simp at this
    exact absurd this hne
  | cons c rest => exact ⟨c, rest, rfl⟩

/-- C8: `_delete_objects_sync` splits the keys into batches of at most 100
preserving order and content; a batch failing with transport errors is retried
up to 5 attempts in total, sleeping `1 + 2^attempt` seconds after each of the
first four failures and re-raising after the fifth; a response reporting any
per-key `Errors` raises even though the call returned; and with fully
successful responses every batch is processed with no error and no sleep. -/
theorem C8_delete_objects_retry (keys : List Bytes)
    (outcomes : Nat → Nat → DelOutcome) (hne : keys ≠ []) :
    ((split keys 100).flatten = keys ∧ ∀ c ∈ split keys 100, c.length ≤ 100) ∧
    ((∀ t, outcomes 0 t = .transportError) →
      delete_objects_sync outcomes keys = ([3, 5, 9, 17], .error .transport)) ∧
    (∀ errs, errs ≠ [] → outcomes 0 1 = .okWith errs →
      delete_objects_sync outcomes keys = ([], .error (.perKeyErrors errs))) ∧
    ((∀ n t, outcomes n t = .okWith []) →
      delete_objects_sync outcomes keys = ([], .ok ())) := by
  obtain ⟨c0, rest0, hsplit⟩ := split_ne_nil_of_ne_nil keys 100 (by norm_num) hne
  refine ⟨⟨split_join keys 100 (by norm_num),
           split_chunk_le keys 100 (by norm_num)⟩, ?_, ?_, ?_⟩
  · intro hall
    have hc := deleteChunkLoop_all_transport (outcomes 0) hall
    rw [delete_objects_sync, hsplit, deleteChunksLoop, hc]
  · intro errs herrs hout
    have hc : deleteChunkLoop (outcomes 0) 1 = ([], .error (.perKeyErrors errs)) := by
      rw [deleteChunkLoop, hout]
      have hie : errs.isEmpty = false := by simp [List.isEmpty_iff, herrs]
      dsimp only
      simp [hie]
    rw [delete_objects_sync, hsplit, deleteChunksLoop, hc]
  · intro hok
    rw [delete_objects_sync]
    exact deleteChunksLoop_all_ok outcomes hok _ 0

/-- C8 witness: a concrete single-key delete whose every attempt hits a
transport error sleeps 3, 5, 9, 17 seconds and re-raises after the fifth
attempt. -/
theorem C8_delete_objects_retry_witness :
    (([[65]] : List Bytes) ≠ []) ∧
    delete_objects_sync (fun _ _ => .transportError) [[65]] =
      ([3, 5, 9, 17], .error .transport) := by
  refine ⟨by simp, ?_⟩
  exact (C8_delete_objects_retry [[65]] (fun _ _ => .transportError)
    (by simp)).2.1 (fun _ => rfl)

/-- `[0-9]` as a byte class. -/
def isDigitB (c : Nat) : Bool := 48 ≤ c && c ≤ 57

/-- `[0-9a-fA-F]` as a byte class. -/
def isHexB (c : Nat) : Bool :=
  isDigitB c || (97 ≤ c && c ≤ 102) || (65 ≤ c && c ≤ 70)

/-- `[0-9A-Z]` as a byte class. -/
def isUpperAlnumB (c : Nat) : Bool := isDigitB c || (65 ≤ c && c ≤ 90)

/-- The day sub-pattern `20[0-9][0-9]-[012][0-9]-[0-3][0-9]` shared by both
filename regexes (aggregate.py lines 20-21), on exactly ten bytes. -/
def isDayPat : Bytes → Bool
  | [c0, c1, c2, c3, d1, m1, m2, d2, e1, e2] =>
    c0 == 50 && c1 == 48 && isDigitB c2 && isDigitB c3 && d1 == 45 &&
    (m1 == 48 || m1 == 49 || m1 == 50) && isDigitB m2 && d2 == 45 &&
    (48 ≤ e1 && e1 ≤ 51) && isDigitB e2
  | _ => false

/-- `re_s3_filename` (aggregate.py line 20):
`^(?P<day>20..-..-..)-[012][0-9]-[0-5][0-9]-[0-6][0-9]-[0-9a-fA-F]+$`; on a
match, returns the captured day substring (the first ten bytes).  The
character classes exclude the literal separators, so the anchored regex
matches iff this positional decomposition does. -/
def match_s3_filename (l : Bytes) : Option Bytes :=
  if isDayPat (l.take 10) then
    match l.drop 10 with
    | d0 :: h1 :: h2 :: d1 :: m1 :: m2 :: d2 :: s1 :: s2 :: d3 :: hex =>
      if d0 == 45 && (h1 == 48 || h1 == 49 || h1 == 50) && isDigitB h2 &&
         d1 == 45 && (48 ≤ m1 && m1 ≤ 53) && isDigitB m2 &&
         d2 == 45 && (48 ≤ s1 && s1 ≤ 54) && isDigitB s2 &&
         d3 == 45 && !hex.isEmpty && hex.all isHexB
      then some (l.take 10) else none
    | _ => none
  else none

/-- `re_cf_filename` (aggregate.py line 21):
`^(?P<dist>[0-9A-Z]+)\.(?P<day>20..-..-..)-[012][0-9]\.[0-9a-fA-F]+\.gz$`; on
a match, returns the captured distribution id and day.  Since `.` belongs to
neither class, the greedy `+` runs are exactly the maximal runs, so the
anchored regex matches iff this decomposition does. -/
def match_cf_filename (l : Bytes) : Option (Bytes × Bytes) :=
  if (l.takeWhile isUpperAlnumB).isEmpty then none
  else
    match l.drop (l.takeWhile isUpperAlnumB).length with
    | 46 :: rest2 =>
      if isDayPat (rest2.take 10) then
        match rest2.drop 10 with
        | d0 :: h1 :: h2 :: 46 :: rest4 =>
          if d0 == 45 && (h1 == 48 || h1 == 49 || h1 == 50) && isDigitB h2 then
            if !(rest4.takeWhile isHexB).isEmpty &&
               rest4.drop (rest4.takeWhile isHexB).length == [46, 103, 122]
            then some (l.takeWhile isUpperAlnumB, rest2.take 10) else none
          else none
        | _ => none
      else none
    | _ => none

/-- Numeric value of an ASCII digit byte. -/
def digitVal (c : Nat) : Nat := c - 48

/-- `datetime.strptime(day_str, '%Y-%m-%d')`'s numeric fields, read
positionally from the ten-byte day string. -/
def parseYMD : Bytes → Nat × Nat × Nat
  | [y1, y2, y3, y4, _, m1, m2, _, d1, d2] =>
    (digitVal y1 * 1000 + digitVal y2 * 100 + digitVal y3 * 10 + digitVal y4,
     digitVal m1 * 10 + digitVal m2, digitVal d1 * 10 + digitVal d2)
  | _ => (0, 0, 0)

def isLeapYear (y : Nat) : Bool := (y % 4 == 0 && !(y % 100 == 0)) || y % 400 == 0

def daysInMonth (y m : Nat) : Nat :=
  if m = 2 then (if isLeapYear y then 29 else 28)
  else if m = 4 ∨ m = 6 ∨ m = 9 ∨ m = 11 then 30 else 31

/-- `datetime.strptime(day_str, '%Y-%m-%d')` succeeds iff the encoded month
and day form a real calendar date (it raises `ValueError` otherwise, e.g. for
month 19, which the loose regex admits). -/
def validYMD (y m d : Nat) : Bool := 1 ≤ m && m ≤ 12 && 1 ≤ d && d ≤ daysInMonth y m

/-- Order-preserving encoding of a calendar date, used to model the
`day_date >= (utcnow() - timedelta(days=min_age_days)).date()` comparison:
`cutoff` is the encoded cutoff date `(utcnow - min_age_days).date()`. -/
def dateKey (y m d : Nat) : Nat := y * 10000 + m * 100 + d

/-- Result of classifying one key (aggregate.py lines 181-205):
assigned to a group, skipped as too fresh, skipped as unrecognized (including
`'aggregated' in filename`), or a `ValueError` from `strptime` on a
pattern-matching filename whose date is not a real calendar date. -/
inductive Classification where
  | grouped : Bytes → Classification
  | tooFresh : Classification
  | unrecognized : Classification
  | invalidDate : Classification
deriving DecidableEq

/-- The per-item classification of `group_s3_items_by_day`: take the filename
(last `/`-segment of the key); skip it when `aggregated` occurs in it; try
`re_s3_filename` then `re_cf_filename`; parse the day (`strptime`, which
raises on an invalid calendar date); skip the item when
`day_date >= cutoff`; otherwise the group key is the day (pattern A) or
`dist + '.' + day` (pattern B). -/
def classify (cutoff : Nat) (key : Bytes) : Classification :=
  if aggregatedBytes <:+: lastSegment key then .unrecognized
  else
    match match_s3_filename (lastSegment key) with
    | some day =>
      if validYMD (parseYMD day).1 (parseYMD day).2.1 (parseYMD day).2.2 then
        if cutoff ≤ dateKey (parseYMD day).1 (parseYMD day).2.1 (parseYMD day).2.2
        then .tooFresh else .grouped day
      else .invalidDate
    | none =>
      match match_cf_filename (lastSegment key) with
      | some (dist, day) =>
        if validYMD (parseYMD day).1 (parseYMD day).2.1 (parseYMD day).2.2 then
          if cutoff ≤ dateKey (parseYMD day).1 (parseYMD day).2.1 (parseYMD day).2.2
          then .tooFresh else .grouped (dist ++ 46 :: day)
        else .invalidDate
      | none => .unrecognized

/-- One listed object: its key and storage class (both byte strings, as
returned by `list_objects_v2`). -/
structure S3Item where
  Key : Bytes
  StorageClass : Bytes
deriving DecidableEq

/-- ASCII bytes of `'GLACIER'`. -/
def GLACIER : Bytes := [71, 76, 65, 67, 73, 69, 82]

/-- ASCII bytes of `'DEEP_ARCHIVE'`. -/
def DEEP_ARCHIVE : Bytes := [68, 69, 69, 80, 95, 65, 82, 67, 72, 73, 86, 69]

/-- ASCII bytes of `'STANDARD_IA'`, the storage class `upload_file` sets. -/
def STANDARD_IA : Bytes := [83, 84, 65, 78, 68, 65, 82, 68, 95, 73, 65]

/-- `x['StorageClass'] in ('GLACIER', 'DEEP_ARCHIVE')` (aggregate.py line 38). -/
def isArchival (sc : Bytes) : Bool := sc == GLACIER || sc == DEEP_ARCHIVE

/-- `groups[k].append(item)` on a `defaultdict(list)`, modelled on an
insertion-ordered association list. -/
def assocAppend (g : List (Bytes × List S3Item)) (k : Bytes) (it : S3Item) :
    List (Bytes × List S3Item) :=
  match g with
  | [] => [(k, [it])]
  | (k0, l0) :: rest =>
    if k0 = k then (k0, l0 ++ [it]) :: rest else (k0, l0) :: assocAppend rest k it

/-- One iteration of the loop of `group_s3_items_by_day` (aggregate.py lines
181-205), threading the `ValueError` raised on an invalid date. -/
def groupStep (cutoff : Nat) (acc : Except Bytes (List (Bytes × List S3Item)))
    (item : S3Item) : Except Bytes (List (Bytes × List S3Item)) :=
  match acc with
  | .error e => .error e
  | .ok g =>
    match classify cutoff item.Key with
    | .grouped k => .ok (assocAppend g k item)
    | .tooFresh => .ok g
    | .unrecognized => .ok g
    | .invalidDate => .error item.Key

/-- `group_s3_items_by_day(items, min_age_days)`: fold the classification over
the items; `.error key` models the uncaught `ValueError` raised while
processing `key`. -/
def group_s3_items_by_day (cutoff : Nat) (items : List S3Item) :
    Except Bytes (List (Bytes × List S3Item)) :=
  items.foldl (groupStep cutoff) (.ok [])

/-- `groups[k]` on the association list (`[]` when absent). -/
def lookupGroup (g : List (Bytes × List S3Item)) (k : Bytes) : List S3Item :=
  match g.find? (fun p => p.1 == k) with
  | some p => p.2
  | none => []

theorem lookupGroup_nil (k : Bytes) : lookupGroup [] k = [] := rfl

theorem lookupGroup_cons (k0 : Bytes) (l0 : List S3Item)
    (rest : List (Bytes × List S3Item)) (k : Bytes) :
    lookupGroup ((k0, l0) :: rest) k =
      if k0 = k then l0 else lookupGroup rest k := by
  by_cases h : k0 = k
  · rw [lookupGroup, List.find?_cons_of_pos _ (by simpa using h), if_pos h]
  · rw [lookupGroup, List.find?_cons_of_neg _ (by simpa using h), if_neg h]
    rfl

theorem assocAppend_lookup (g : List (Bytes × List S3Item)) (k : Bytes)
    (it : S3Item) (k' : Bytes) :
    lookupGroup (assocAppend g k it) k' =
      if k' = k then lookupGroup g k' ++ [it] else lookupGroup g k' := by
  induction g with
  | nil =>
    rw [assocAppend, lookupGroup_cons]
    by_cases h : k' = k
    · rw [if_pos (h.symm), if_pos h, lookupGroup_nil]
      rfl
    · rw [if_neg (fun hc => h hc.symm), if_neg h, lookupGroup_nil]
  | cons p rest ih =>
    obtain ⟨k0, l0⟩ := p
    rw [assocAppend]
    by_cases h0 : k0 = k
    · rw [if_pos h0, lookupGroup_cons, lookupGroup_cons]
      by_cases h' : k0 = k'
      · rw [if_pos h', if_pos h', if_pos (by rw [← h', h0])]
      · rw [if_neg h', if_neg h', if_neg (by rw [← h0]; exact fun hc => h' hc.symm)]
    · rw [if_neg h0, lookupGroup_cons, lookupGroup_cons]
      by_cases h' : k0 = k'
      · rw [if_pos h', if_pos h', if_neg (by rw [← h']; exact fun hc => h0 hc)]
      · rw [if_neg h', if_neg h', ih]

theorem groupStep_error (cutoff : Nat) :
    ∀ (items : List S3Item) (e : Bytes),
    items.foldl (groupStep cutoff) (.error e) = .error e := by
  intro items
  induction items with
  | nil => intro e; rfl
  | cons it rest ih => intro e; rw [List.foldl_cons, groupStep]; exact ih e

theorem group_fold_char (cutoff : Nat) :
    ∀ (items : List S3Item) (g0 : List (Bytes × List S3Item)),
    (∀ it ∈ items, classify cutoff it.Key ≠ .invalidDate) →
    ∃ G, items.foldl (groupStep cutoff) (.ok g0) = .ok G ∧
      ∀ k, lookupGroup G k =
        lookupGroup g0 k ++
          items.filter (fun it => classify cutoff it.Key == .grouped k) := by
  intro items
  induction items with
  | nil =>
    intro g0 _
    exact ⟨g0, rfl, fun k => by simp⟩
  | cons it rest ih =>
    intro g0 h
    have hrest : ∀ x ∈ rest, classify cutoff x.Key ≠ .invalidDate :=
      fun x hx => h x (List.mem_cons_of_mem _ hx)
    rw [List.foldl_cons]
    cases hcl : classify cutoff it.Key with
    | grouped k0 =>
      have hstep : groupStep cutoff (.ok g0) it = .ok (assocAppend g0 k0 it) := by
        rw [groupStep, hcl]
      rw [hstep]
      obtain ⟨G, hG, hlook⟩ := ih (assocAppend g0 k0 it) hrest
      refine ⟨G, hG, fun k => ?_⟩
      rw [hlook k, assocAppend_lookup]
      by_cases hk : k = k0
      · rw [if_pos hk, List.filter_cons_of_pos (by simp [hcl, hk]),
          List.append_assoc]
        rfl
      · rw [if_neg hk, List.filter_cons_of_neg (by simp [hcl]; exact fun hc => hk hc.symm)]
    | tooFresh =>
      have hstep : groupStep cutoff (.ok g0) it = .ok g0 := by
        rw [groupStep, hcl]
      rw [hstep]
      obtain ⟨G, hG, hlook⟩ := ih g0 hrest
      refine ⟨G, hG, fun k => ?_⟩
      rw [hlook k, List.filter_cons_of_neg (by simp [hcl])]
    | unrecognized =>
      have hstep : groupStep cutoff (.ok g0) it = .ok g0 := by
        rw [groupStep, hcl]
      rw [hstep]
      obtain ⟨G, hG, hlook⟩ := ih g0 hrest
      refine ⟨G, hG, fun k => ?_⟩
      rw [hlook k, List.filter_cons_of_neg (by simp [hcl])]
    | invalidDate => exact absurd hcl (h it (List.mem_cons_self _ _))

theorem group_ok_no_invalid (cutoff : Nat) :
    ∀ (items : List S3Item) (g0 : List (Bytes × List S3Item))
    (G : List (Bytes × List S3Item)),
    items.foldl (groupStep cutoff) (.ok g0) = .ok G →
    ∀ it ∈ items, classify cutoff it.Key ≠ .invalidDate := by
  intro items
  induction items with
  | nil => intro g0 G _ it hit; simp at hit
  | cons x rest ih =>
    intro g0 G hfold it hit
    rw [List.foldl_cons] at hfold
    cases hcl : classify cutoff x.Key with
    | invalidDate =>
      have hstep : groupStep cutoff (.ok g0) x = .error x.Key := by
        rw [groupStep, hcl]
      rw [hstep, groupStep_error] at hfold
      exact absurd hfold (by simp)
    | grouped k0 =>
      have hstep : groupStep cutoff (.ok g0) x = .ok (assocAppend g0 k0 x) := by
        rw [groupStep, hcl]
      rw [hstep] at hfold
      rcases List.mem_cons.mp hit with rfl | hit'
      · rw [hcl]; simp
      · exact ih _ _ hfold it hit'
    | tooFresh =>
      have hstep : groupStep cutoff (.ok g0) x = .ok g0 := by
        rw [groupStep, hcl]
      rw [hstep] at hfold
      rcases List.mem_cons.mp hit with rfl | hit'
      · rw [hcl]; simp
      · exact ih _ _ hfold it hit'
    | unrecognized =>
      have hstep : groupStep cutoff (.ok g0) x = .ok g0 := by
        rw [groupStep, hcl]
      rw [hstep] at hfold
      rcases List.mem_cons.mp hit with rfl | hit'
      · rw [hcl]; simp
      · exact ih _ _ hfold it hit'

/-- Structural invariant of the grouping dictionary: keys are distinct and
every group is non-empty. -/
def goodAssoc (g : List (Bytes × List S3Item)) : Prop :=
  (g.map Prod.fst).Nodup ∧ ∀ p ∈ g, p.2 ≠ []

theorem assocAppend_keys (g : List (Bytes × List S3Item)) (k : Bytes)
    (it : S3Item) :
    (assocAppend g k it).map Prod.fst =
      (if k ∈ g.map Prod.fst then g.map Prod.fst else g.map Prod.fst ++ [k]) := by
  induction g with
  | nil => simp [assocAppend]
  | cons p rest ih =>
    obtain ⟨k0, l0⟩ := p
    rw [assocAppend]
    by_cases h0 : k0 = k
    · subst h0
      simp [List.mem_cons]
    · rw [if_neg h0]
      by_cases hmem : k ∈ rest.map Prod.fst
      · simp only [List.map_cons, ih, hmem, if_true, ite_true]
        rw [if_pos (by simp [hmem])]
      · simp only [List.map_cons, ih, hmem, if_false, ite_false]
        rw [if_neg (by
          simp only [List.mem_cons]
          rintro (hc | hc)
          · exact h0 hc.symm
          · exact hmem hc)]
        simp

theorem assocAppend_good (g : List (Bytes × List S3Item)) (k : Bytes)
    (it : S3Item) (hg : goodAssoc g) : goodAssoc (assocAppend g k it) := by
  obtain ⟨hnd, hne⟩ := hg
  constructor
  · rw [assocAppend_keys]
    by_cases hmem : k ∈ g.map Prod.fst
    · rw [if_pos hmem]; exact hnd
    · rw [if_neg hmem]
      simp [List.nodup_append, hnd, hmem]
  · intro p hp
    clear hnd
    induction g with
    | nil =>
      rw [assocAppend] at hp
      rcases List.mem_singleton.mp hp with rfl
      simp
    | cons q rest ih =>
      obtain ⟨k0, l0⟩ := q
      rw [assocAppend] at hp
      by_cases h0 : k0 = k
      · rw [if_pos h0] at hp
        rcases List.mem_cons.mp hp with rfl | hp'
        · simp
        · exact hne p (List.mem_cons_of_mem _ hp')
      · rw [if_neg h0] at hp
        rcases List.mem_cons.mp hp with rfl | hp'
        · exact hne _ (List.mem_cons_self _ _)
        · exact ih (fun q hq => hne q (List.mem_cons_of_mem _ hq)) hp'

theorem group_fold_good (cutoff : Nat) :
    ∀ (items : List S3Item) (g0 G : List (Bytes × List S3Item)),
    goodAssoc g0 → items.foldl (groupStep cutoff) (.ok g0) = .ok G →
    goodAssoc G := by
  intro items
  induction items with
  | nil =>
    intro g0 G hg hfold
    injection hfold with h
    rw [← h]
    exact hg
  | cons x rest ih =>
    intro g0 G hg hfold
    rw [List.foldl_cons] at hfold
    cases hcl : classify cutoff x.Key with
    | grouped k0 =>
      rw [show groupStep cutoff (.ok g0) x = .ok (assocAppend g0 k0 x) by
        rw [groupStep, hcl]] at hfold
      exact ih _ _ (assocAppend_good g0 k0 x hg) hfold
    | tooFresh =>
      rw [show groupStep cutoff (.ok g0) x = .ok g0 by rw [groupStep, hcl]] at hfold
      exact ih _ _ hg hfold
    | unrecognized =>
      rw [show groupStep cutoff (.ok g0) x = .ok g0 by rw [groupStep, hcl]] at hfold
      exact ih _ _ hg hfold
    | invalidDate =>
      rw [show groupStep cutoff (.ok g0) x = .error x.Key by rw [groupStep, hcl],
        groupStep_error] at hfold
      exact absurd hfold (by simp)

theorem mem_nodup_eq_lookup :
    ∀ (g : List (Bytes × List S3Item)), (g.map Prod.fst).Nodup →
    ∀ (k : Bytes) (l : List S3Item), (k, l) ∈ g → lookupGroup g k = l := by
  intro g
  induction g with
  | nil => intro _ k l hmem; simp at hmem
  | cons p rest ih =>
    intro hnd k l hmem
    obtain ⟨k0, l0⟩ := p
    rw [lookupGroup_cons]
    rcases List.mem_cons.mp hmem with heq | hmem'
    · obtain ⟨h1, h2⟩ := (Prod.mk.injEq .. |>.mp heq)
      rw [if_pos h1.symm]
      exact h2.symm
    · simp only [List.map_cons, List.nodup_cons] at hnd
      have hk : k ∈ rest.map Prod.fst := List.mem_map.mpr ⟨(k, l), hmem', rfl⟩
      have hk0 : k0 ≠ k := fun hc => hnd.1 (by rw [hc]; exact hk)
      rw [if_neg hk0]
      exact ih hnd.2 k l hmem'

theorem lookup_ne_nil_mem (g : List (Bytes × List S3Item)) (k : Bytes)
    (h : lookupGroup g k ≠ []) : (k, lookupGroup g k) ∈ g := by
  rw [lookupGroup] at h ⊢
  cases hf : g.find? (fun p => p.1 == k) with
  | none =>
    rw [hf] at h
    dsimp only at h
    exact absurd rfl h
  | some p =>
    dsimp only
    have hp : p ∈ g := List.mem_of_find?_eq_some hf
    have hpk : p.1 = k := by
      have := List.find?_some hf
      simpa using this
    have : (k, p.2) = p := by
      rw [← hpk]
    rw [this]
    exact hp

/-- C4 counterexample input: the key `p/2020-19-11-12-30-30-AB`, whose
filename matches `re_s3_filename` (the regex admits month `19`) but whose
date makes `datetime.strptime` raise `ValueError`. -/
def c4key : Bytes :=
  [112, 47, 50, 48, 50, 48, 45, 49, 57, 45, 49, 49, 45, 49, 50,
   45, 51, 48, 45, 51, 48, 45, 65, 66]

/-- C4 counterexample: on an object whose filename matches pattern A with the
impossible month 19, `group_s3_items_by_day` does not return normally — the
`strptime` `ValueError` escapes (modelled as `.error` naming the key), so
classification is not limited to grouped/too-fresh/unrecognized. -/
theorem C4_counterexample :
    classify 30000000 c4key = .invalidDate ∧
    group_s3_items_by_day 30000000 [⟨c4key, [83]⟩] = .error c4key ∧
    ∀ G, group_s3_items_by_day 30000000 [⟨c4key, [83]⟩] ≠ .ok G := by
  refine ⟨by decide, rfl, fun G h => ?_⟩
  exact Except.noConfusion
    ((show group_s3_items_by_day 30000000 [⟨c4key, [83]⟩] = .error c4key
      from rfl).symm.trans h)

/-- Every member of a group produced by the classifier fold classifies to that
group's key. -/
theorem mem_group_classify (cutoff : Nat) (items : List S3Item)
    (G : List (Bytes × List S3Item))
    (hG : items.foldl (groupStep cutoff) (.ok []) = .ok G)
    (hvalid : ∀ it ∈ items, classify cutoff it.Key ≠ .invalidDate) :
    ∀ p ∈ G, ∀ x ∈ p.2, x ∈ items ∧ classify cutoff x.Key = .grouped p.1 := by
  obtain ⟨G', hG', hlook⟩ := group_fold_char cutoff items [] hvalid
  rw [hG] at hG'
  injection hG' with hGG
  subst hGG
  have hgood : goodAssoc G :=
    group_fold_good cutoff items [] G ⟨by simp, by simp⟩ hG
  intro p hp x hx
  have hpl : lookupGroup G p.1 = p.2 :=
    mem_nodup_eq_lookup G hgood.1 p.1 p.2 hp
  rw [hlook p.1, lookupGroup_nil, List.nil_append] at hpl
  rw [← hpl] at hx
  have hf := List.mem_filter.mp hx
  exact ⟨hf.1, by simpa using hf.2⟩

/-- C4 (amended): whenever every pattern-matching filename encodes a valid
calendar date (in particular on all real S3/CloudFront log listings),
`group_s3_items_by_day` returns normally, and every item is either assigned to
the group of its classifier key, or skipped as too fresh, or silently skipped
as unrecognized — a classification skip is never an error.  A matching
filename with an impossible date (e.g. month 19) instead raises `ValueError`
out of the function. -/
theorem C4_classification_amended (cutoff : Nat) (items : List S3Item)
    (hvalid : ∀ it ∈ items, classify cutoff it.Key ≠ .invalidDate) :
    ∃ G, group_s3_items_by_day cutoff items = .ok G ∧
      ∀ it ∈ items,
        (∃ k, classify cutoff it.Key = .grouped k ∧ it ∈ lookupGroup G k) ∨
        (classify cutoff it.Key = .tooFresh ∧ ∀ p ∈ G, it ∉ p.2) ∨
        (classify cutoff it.Key = .unrecognized ∧ ∀ p ∈ G, it ∉ p.2) := by
  obtain ⟨G, hG, hlook⟩ := group_fold_char cutoff items [] hvalid
  have hGr : group_s3_items_by_day cutoff items = .ok G := hG
  have hmc := mem_group_classify cutoff items G hG hvalid
  refine ⟨G, hGr, fun it hit => ?_⟩
  cases hcl : classify cutoff it.Key with
  | grouped k =>
    refine Or.inl ⟨k, rfl, ?_⟩
    rw [hlook k, lookupGroup_nil, List.nil_append]
    exact List.mem_filter.mpr ⟨hit, by simp [hcl]⟩
  | tooFresh =>
    refine Or.inr (Or.inl ⟨rfl, fun p hp hitp => ?_⟩)
    have := (hmc p hp it hitp).2
    rw [hcl] at this
    exact Classification.noConfusion this
  | unrecognized =>
    refine Or.inr (Or.inr ⟨rfl, fun p hp hitp => ?_⟩)
    have := (hmc p hp it hitp).2
    rw [hcl] at this
    exact Classification.noConfusion this
  | invalidDate => exact absurd hcl (hvalid it hit)

/-- C4 witness: a single unparseable filename is silently excluded and the
grouping returns normally with no group containing it. -/
theorem C4_classification_amended_witness :
    (∀ it ∈ [(⟨[112, 47, 102, 111, 111, 46, 116, 120, 116], [83]⟩ : S3Item)],
      classify 30000000 it.Key ≠ .invalidDate) ∧
    ∃ G, group_s3_items_by_day 30000000
        [⟨[112, 47, 102, 111, 111, 46, 116, 120, 116], [83]⟩] = .ok G ∧
      ∀ p ∈ G, (⟨[112, 47, 102, 111, 111, 46, 116, 120, 116], [83]⟩ : S3Item) ∉ p.2 := by
  refine ⟨by decide, ?_⟩
  obtain ⟨G, hG, htri⟩ := C4_classification_amended 30000000
    [⟨[112, 47, 102, 111, 111, 46, 116, 120, 116], [83]⟩] (by decide)
  refine ⟨G, hG, ?_⟩
  have hcl : classify 30000000
      (⟨[112, 47, 102, 111, 111, 46, 116, 120, 116], [83]⟩ : S3Item).Key =
      .unrecognized := by decide
  rcases htri _ (List.mem_cons_self _ _) with ⟨k, hk, _⟩ | ⟨hk, hex⟩ | ⟨hk, hex⟩
  · exact Classification.noConfusion (hcl.symm.trans hk)
  · exact Classification.noConfusion (hcl.symm.trans hk)
  · exact hex

/-- Observable actions of one full `aggregate_s3_logs` run. -/
inductive REvent where
  | warnGlacier : Bytes → List Bytes → REvent
  | download : Bytes → REvent
  | upload : Bytes → REvent
  | delete : List Bytes → REvent
deriving DecidableEq

/-- The keys reported by the glacier warning (aggregate.py line 38):
members of the group whose storage class is archival. -/
def glacierKeys (items : List S3Item) : List Bytes :=
  (items.filter (fun it => isArchival it.StorageClass)).map S3Item.Key

/-- Whether a group has any member in an archival storage class. -/
def hasGlacier (items : List S3Item) : Bool :=
  items.any (fun it => isArchival it.StorageClass)

/-- The warnings emitted by the glacier filter (aggregate.py lines 37-43). -/
def glacierWarnings (groups : List (Bytes × List S3Item)) : List REvent :=
  (groups.filter (fun p => hasGlacier p.2)).map
    (fun p => .warnGlacier p.1 (glacierKeys p.2))

/-- `del groups[day]` for every group with an archival member
(aggregate.py lines 37-43). -/
def dropGlacierGroups (groups : List (Bytes × List S3Item)) :
    List (Bytes × List S3Item) :=
  groups.filter (fun p => !hasGlacier p.2)

/-- `'aggregated' in filename` for a full key. -/
def hasAgg (key : Bytes) : Prop := aggregatedBytes <:+: lastSegment key

instance (key : Bytes) : Decidable (hasAgg key) := by
  unfold hasAgg; infer_instance

/-- The archive object `process_group` uploads for one group: key derived from
the first member key's directory, the group id and the first 7 hash bytes
(aggregate.py lines 103-105, 111); storage class `STANDARD_IA`
(s3_client.py line 104). -/
def archiveItemOf (hashFn : Bytes → Bytes) (gid : Bytes) (gitems : List S3Item)
    (out : Bytes) : S3Item :=
  ⟨resultKey ((gitems.map S3Item.Key).headD []) gid ((hashFn out).take 7),
   STANDARD_IA⟩

/-- The store after one group commits with force: its member keys are deleted
and the archive object is added. -/
def storeAfterGroup (store : List S3Item) (gitems : List S3Item)
    (arch : S3Item) : List S3Item :=
  store.filter (fun s => !((gitems.map S3Item.Key).contains s.Key)) ++ [arch]

/-- The group fan-out of `aggregate_s3_logs` with `force=True`, modelled
sequentially (the per-group store effects are disjoint): each group downloads
its members, concatenates them (failing the run on a bad source),
uploads its archive and deletes its sources; the first failure stops the
remaining groups (`FIRST_EXCEPTION`). -/
def processGroups (gunzip hashFn contentOf : Bytes → Bytes) :
    List (Bytes × List S3Item) → List S3Item →
    List REvent × Except Bytes (List S3Item)
  | [], store => ([], .ok store)
  | (gid, gitems) :: rest, store =>
    match concatenate_files gunzip
        (gitems.map (fun it => (it.Key, contentOf it.Key))) with
    | .error k => (gitems.map (fun it => REvent.download it.Key), .error k)
    | .ok out =>
      (gitems.map (fun it => REvent.download it.Key) ++
        [.upload (archiveItemOf hashFn gid gitems out).Key,
         .delete (gitems.map S3Item.Key)] ++
        (processGroups gunzip hashFn contentOf rest
          (storeAfterGroup store gitems (archiveItemOf hashFn gid gitems out))).1,
       (processGroups gunzip hashFn contentOf rest
          (storeAfterGroup store gitems (archiveItemOf hashFn gid gitems out))).2)

/-- `items.sort(key=itemgetter('Key'))`: ascending lexicographic byte order. -/
def byteLe : Bytes → Bytes → Bool
  | [], _ => true
  | _ :: _, [] => false
  | a :: as, b :: bs => if a < b then true else if b < a then false else byteLe as bs

def keyLe (a b : S3Item) : Prop := byteLe a.Key b.Key = true

instance : DecidableRel keyLe := fun a b => by unfold keyLe; infer_instance

def sortByKey (store : List S3Item) : List S3Item := List.insertionSort keyLe store

theorem mem_sortByKey (store : List S3Item) (x : S3Item) :
    x ∈ sortByKey store ↔ x ∈ store :=
  (List.perm_insertionSort keyLe store).mem_iff

/-- One full `aggregate_s3_logs` run with `force=True` over a store state:
list (sorted by key), return early when empty, group by day, warn about and
drop groups with archival members, then process the remaining groups.
Returns the events and the resulting store (`.error` wraps the first group
failure, aggregate.py lines 113-118 and 72). -/
def run_pipeline (gunzip hashFn contentOf : Bytes → Bytes) (cutoff : Nat)
    (store : List S3Item) : List REvent × Except Bytes (List S3Item) :=
  if store.isEmpty then ([], .ok store)
  else
    match group_s3_items_by_day cutoff (sortByKey store) with
    | .error k => ([], .error k)
    | .ok groups =>
      (glacierWarnings groups ++
        (processGroups gunzip hashFn contentOf (dropGlacierGroups groups) store).1,
       (processGroups gunzip hashFn contentOf (dropGlacierGroups groups) store).2)

theorem isDayPat_chars : ∀ (d : Bytes), isDayPat d = true →
    ∀ c ∈ d, (48 ≤ c ∧ c ≤ 57) ∨ c = 45 := by
  intro d h c hc
  rcases d with _ | ⟨c0, _ | ⟨c1, _ | ⟨c2, _ | ⟨c3, _ | ⟨d1, _ | ⟨m1, _ | ⟨m2,
    _ | ⟨d2, _ | ⟨e1, _ | ⟨e2, _ | ⟨x, t⟩⟩⟩⟩⟩⟩⟩⟩⟩⟩⟩ <;>
    simp [isDayPat, isDigitB] at h
  simp only [List.mem_cons, List.not_mem_nil, or_false] at hc
  rcases hc with rfl | rfl | rfl | rfl | rfl | rfl | rfl | rfl | rfl | rfl <;>
    omega

theorem match_s3_some (l day : Bytes) (h : match_s3_filename l = some day) :
    day = l.take 10 ∧ isDayPat (l.take 10) = true := by
  rw [match_s3_filename] at h
  by_cases h1 : isDayPat (l.take 10) = true
  · rw [if_pos h1] at h
    refine ⟨?_, h1⟩
    split at h
    · split at h
      · injection h with hd
        exact hd.symm
      · exact Option.noConfusion h
    · exact Option.noConfusion h
  · rw [if_neg h1] at h
    exact Option.noConfusion h

theorem match_cf_some (l dist day : Bytes)
    (h : match_cf_filename l = some (dist, day)) :
    (∀ c ∈ dist, isUpperAlnumB c = true) ∧ isDayPat day = true := by
  rw [match_cf_filename] at h
  split at h
  · exact Option.noConfusion h
  · split at h
    · rename_i rest2 heq
      split at h
      · rename_i hday
        split at h
        · rename_i d0 h1 h2 rest4 heq2
          split at h
          · split at h
            · injection h with hpair
              obtain ⟨hdist, hday'⟩ := (Prod.mk.injEq .. |>.mp hpair)
              constructor
              · intro c hc
                rw [← hdist] at hc
                exact List.mem_takeWhile_imp hc
              · rw [← hday']
                exact hday
            · exact Option.noConfusion h
          · exact Option.noConfusion h
        · exact Option.noConfusion h
      · exact Option.noConfusion h
    · exact Option.noConfusion h

/-- A group key produced by the classifier contains no `/` and its key's
filename does not contain `aggregated`. -/
theorem classify_grouped_facts (cutoff : Nat) (key k : Bytes)
    (h : classify cutoff key = .grouped k) :
    (47 : Nat) ∉ k ∧ ¬ hasAgg key := by
  rw [classify] at h
  by_cases hagg : aggregatedBytes <:+: lastSegment key
  · rw [if_pos hagg] at h
    exact Classification.noConfusion h
  · rw [if_neg hagg] at h
    refine ⟨?_, hagg⟩
    split at h
    · rename_i day heq
      split at h
      · split at h
        · exact Classification.noConfusion h
        · injection h with hk
          obtain ⟨hday, hpat⟩ := match_s3_some (lastSegment key) day heq
          intro hmem
          rw [← hk, hday] at hmem
          rcases isDayPat_chars _ hpat 47 hmem with hr | hr <;> omega
      · exact Classification.noConfusion h
    · split at h
      · rename_i dist day heq2
        split at h
        · split at h
          · exact Classification.noConfusion h
          · injection h with hk
            obtain ⟨hdist, hpat⟩ := match_cf_some (lastSegment key) dist day heq2
            intro hmem
            rw [← hk] at hmem
            rcases List.mem_append.mp hmem with hm | hm
            · have := hdist 47 hm
              simp [isUpperAlnumB, isDigitB] at this
            · rcases List.mem_cons.mp hm with hm | hm
              · omega
              · rcases isDayPat_chars _ hpat 47 hm with hr | hr <;> omega
        · exact Classification.noConfusion h
      · exact Classification.noConfusion h

/-- A key whose filename contains `aggregated` is always skipped. -/
theorem classify_hasAgg (cutoff : Nat) (key : Bytes) (h : hasAgg key) :
    classify cutoff key = .unrecognized := by
  have h' : aggregatedBytes <:+: lastSegment key := h
  rw [classify, if_pos h']

theorem takeWhile_no47 : ∀ (l1 l2 : Bytes), (∀ c ∈ l1, c ≠ 47) →
    (l1 ++ 47 :: l2).takeWhile (fun c => c ≠ 47) = l1 := by
  intro l1
  induction l1 with
  | nil =>
    intro l2 _
    simp
  | cons a t ih =>
    intro l2 h
    have ha : a ≠ 47 := h a (List.mem_cons_self _ _)
    rw [List.cons_append, List.takeWhile_cons, if_pos (by simp [ha]),
      ih l2 (fun c hc => h c (List.mem_cons_of_mem _ hc))]

theorem lastSegment_append (dir fname : Bytes) (h47 : ∀ c ∈ fname, c ≠ 47) :
    lastSegment (dir ++ 47 :: fname) = fname := by
  rw [lastSegment, List.reverse_append, List.reverse_cons, List.append_assoc,
    List.singleton_append,
    takeWhile_no47 _ _ (fun c hc => h47 c (by simpa using hc)),
    List.reverse_reverse]

/-- The archive key always carries `aggregated` in its filename, provided the
group id and the hash digits contain no `/`. -/
theorem hasAgg_resultKey (firstKey gid hash7 : Bytes)
    (hgid : (47 : Nat) ∉ gid) (hh : (47 : Nat) ∉ hash7) :
    hasAgg (resultKey firstKey gid hash7) := by
  have h47 : ∀ c ∈ resultFilename gid hash7, c ≠ 47 := by
    intro c hc hceq
    subst hceq
    rw [resultFilename] at hc
    simp [aggregatedBytes] at hc
    rcases hc with hc | hc
    · exact hgid hc
    · exact hh hc
  rw [hasAgg, resultKey,
    show dirname firstKey ++ [47] ++ resultFilename gid hash7 =
      dirname firstKey ++ 47 :: resultFilename gid hash7 by simp,
    lastSegment_append _ _ h47, resultFilename]
  exact ⟨gid ++ [45], [45] ++ hash7 ++ [46, 103, 122], by simp⟩

theorem not_contains_iff (l : List Bytes) (a : Bytes) :
    (!(l.contains a)) = true ↔ a ∉ l := by
  simp [List.elem_iff]

theorem processGroups_ok_mem (gunzip hashFn contentOf : Bytes → Bytes)
    (hh : ∀ l, (47 : Nat) ∉ hashFn l) :
    ∀ (gs : List (Bytes × List S3Item)) (store st : List S3Item)
      (evs : List REvent),
    (∀ p ∈ gs, (47 : Nat) ∉ p.1) →
    processGroups gunzip hashFn contentOf gs store = (evs, .ok st) →
    ∀ x ∈ st,
      (x ∈ store ∧ ∀ p ∈ gs, x.Key ∉ p.2.map S3Item.Key) ∨ hasAgg x.Key := by
  intro gs
  induction gs with
  | nil =>
    intro store st evs _ hps x hx
    rw [processGroups] at hps
    injection hps with h1 h2
    injection h2 with h3
    rw [← h3] at hx
    exact Or.inl ⟨hx, by simp⟩
  | cons g rest ih =>
    intro store st evs hgid hps x hx
    obtain ⟨gid, gitems⟩ := g
    rw [processGroups] at hps
    cases hc : concatenate_files gunzip
        (gitems.map fun it => (it.Key, contentOf it.Key)) with
    | error k =>
      rw [hc] at hps
      dsimp only at hps
      injection hps with h1 h2
      exact absurd h2 (by simp)
    | ok out =>
      rw [hc] at hps
      dsimp only at hps
      injection hps with h1 h2
      have hrec : processGroups gunzip hashFn contentOf rest
          (storeAfterGroup store gitems (archiveItemOf hashFn gid gitems out)) =
          ((processGroups gunzip hashFn contentOf rest
            (storeAfterGroup store gitems (archiveItemOf hashFn gid gitems out))).1,
           .ok st) := by
        rw [← h2]
      have hgrest : ∀ p ∈ rest, (47 : Nat) ∉ p.1 :=
        fun p hp => hgid p (List.mem_cons_of_mem _ hp)
      rcases ih _ st _ hgrest hrec x hx with ⟨hx1, hx2⟩ | hagg
      · rw [storeAfterGroup] at hx1
        rcases List.mem_append.mp hx1 with hf | ha
        · have hfm := List.mem_filter.mp hf
          refine Or.inl ⟨hfm.1, fun p hp => ?_⟩
          rcases List.mem_cons.mp hp with rfl | hp'
          · exact (not_contains_iff _ _).mp hfm.2
          · exact hx2 p hp'
        · rw [List.mem_singleton.mp ha]
          exact Or.inr (hasAgg_resultKey _ _ _
            (hgid (gid, gitems) (List.mem_cons_self _ _))
            (fun hm => hh out (List.take_subset _ _ hm)))
      · exact Or.inr hagg

theorem processGroups_preserve (gunzip hashFn contentOf : Bytes → Bytes) :
    ∀ (gs : List (Bytes × List S3Item)) (store st : List S3Item)
      (evs : List REvent),
    processGroups gunzip hashFn contentOf gs store = (evs, .ok st) →
    ∀ x ∈ store, (∀ p ∈ gs, x.Key ∉ p.2.map S3Item.Key) → x ∈ st := by
  intro gs
  induction gs with
  | nil =>
    intro store st evs hps x hx _
    rw [processGroups] at hps
    injection hps with h1 h2
    injection h2 with h3
    rw [← h3]
    exact hx
  | cons g rest ih =>
    intro store st evs hps x hx hnot
    obtain ⟨gid, gitems⟩ := g
    rw [processGroups] at hps
    cases hc : concatenate_files gunzip
        (gitems.map fun it => (it.Key, contentOf it.Key)) with
    | error k =>
      rw [hc] at hps
      dsimp only at hps
      injection hps with h1 h2
      exact absurd h2 (by simp)
    | ok out =>
      rw [hc] at hps
      dsimp only at hps
      injection hps with h1 h2
      have hrec : processGroups gunzip hashFn contentOf rest
          (storeAfterGroup store gitems (archiveItemOf hashFn gid gitems out)) =
          ((processGroups gunzip hashFn contentOf rest
            (storeAfterGroup store gitems (archiveItemOf hashFn gid gitems out))).1,
           .ok st) := by
        rw [← h2]
      refine ih _ st _ hrec x ?_ (fun p hp => hnot p (List.mem_cons_of_mem _ hp))
      rw [storeAfterGroup]
      refine List.mem_append.mpr (Or.inl (List.mem_filter.mpr ⟨hx, ?_⟩))
      exact (not_contains_iff _ _).mpr (hnot (gid, gitems) (List.mem_cons_self _ _))

theorem processGroups_events (gunzip hashFn contentOf : Bytes → Bytes)
    (hh : ∀ l, (47 : Nat) ∉ hashFn l) :
    ∀ (gs : List (Bytes × List S3Item)) (store : List S3Item),
    (∀ p ∈ gs, (47 : Nat) ∉ p.1) →
    ∀ e ∈ (processGroups gunzip hashFn contentOf gs store).1,
      (∃ p ∈ gs, ∃ it ∈ p.2, e = .download it.Key) ∨
      (∃ rk, e = .upload rk ∧ hasAgg rk) ∨
      (∃ p ∈ gs, e = .delete (p.2.map S3Item.Key)) := by
  intro gs
  induction gs with
  | nil =>
    intro store _ e he
    rw [processGroups] at he
    simp at he
  | cons g rest ih =>
    intro store hgid e he
    obtain ⟨gid, gitems⟩ := g
    rw [processGroups] at he
    cases hc : concatenate_files gunzip
        (gitems.map fun it => (it.Key, contentOf it.Key)) with
    | error k =>
      rw [hc] at he
      dsimp only at he
      obtain ⟨it, hit, hde⟩ := List.mem_map.mp he
      exact Or.inl ⟨(gid, gitems), List.mem_cons_self _ _, it, hit, hde.symm⟩
    | ok out =>
      rw [hc] at he
      dsimp only at he
      rcases List.mem_append.mp he with he1 | he2
      · rcases List.mem_append.mp he1 with hd | hud
        · obtain ⟨it, hit, hde⟩ := List.mem_map.mp hd
          exact Or.inl ⟨(gid, gitems), List.mem_cons_self _ _, it, hit, hde.symm⟩
        · rcases List.mem_cons.mp hud with rfl | hud'
          · refine Or.inr (Or.inl ⟨(archiveItemOf hashFn gid gitems out).Key, rfl, ?_⟩)
            exact hasAgg_resultKey _ _ _
              (hgid (gid, gitems) (List.mem_cons_self _ _))
              (fun hm => hh out (List.take_subset _ _ hm))
          · rcases List.mem_singleton.mp hud' with rfl
            exact Or.inr (Or.inr ⟨(gid, gitems), List.mem_cons_self _ _, rfl⟩)
      · rcases ih _ (fun p hp => hgid p (List.mem_cons_of_mem _ hp)) e he2 with
          ⟨p, hp, hrest⟩ | hup | ⟨p, hp, hrest⟩
        · exact Or.inl ⟨p, List.mem_cons_of_mem _ hp, hrest⟩
        · exact Or.inr (Or.inl hup)
        · exact Or.inr (Or.inr ⟨p, List.mem_cons_of_mem _ hp, hrest⟩)

theorem nodup_key_inj :
    ∀ (store : List S3Item), (store.map S3Item.Key).Nodup →
    ∀ x ∈ store, ∀ y ∈ store, x.Key = y.Key → x = y := by
  intro store
  induction store with
  | nil => intro _ x hx; simp at hx
  | cons a t ih =>
    intro hnd x hx y hy hkey
    simp only [List.map_cons, List.nodup_cons] at hnd
    rcases List.mem_cons.mp hx with rfl | hx' <;>
      rcases List.mem_cons.mp hy with rfl | hy'
    · rfl
    · exact absurd (hkey ▸ List.mem_map.mpr ⟨y, hy', rfl⟩) hnd.1
    · exact absurd (hkey ▸ List.mem_map.mpr ⟨x, hx', rfl⟩) hnd.1
    · exact ih hnd.2 x hx' y hy' hkey

/-- C6: idempotence.  After a successful forced run over a store with distinct
keys (hash digests contain no `/`), immediately re-running the full pipeline
performs no changes: the store is returned unchanged, the run succeeds, and
the only events are the re-emitted glacier warnings — every archive of the
first run carries `aggregated` in its filename and is excluded by the
classifier, every surviving object classifies exactly as before (skip or
member of a dropped glacier group), so no group remains to process. -/
theorem C6_second_run_no_changes (gunzip hashFn contentOf : Bytes → Bytes)
    (cutoff : Nat) (store store' : List S3Item) (ev1 : List REvent)
    (hnodup : (store.map S3Item.Key).Nodup)
    (hhash : ∀ l, (47 : Nat) ∉ hashFn l)
    (h1 : run_pipeline gunzip hashFn contentOf cutoff store = (ev1, .ok store')) :
    ∃ ev2, run_pipeline gunzip hashFn contentOf cutoff store' = (ev2, .ok store') ∧
      ∀ e ∈ ev2, ∃ gid ks, e = REvent.warnGlacier gid ks := by
  rw [run_pipeline] at h1
  by_cases hemp : store.isEmpty
  · rw [if_pos hemp] at h1
    injection h1 with he1 he2
    injection he2 with he3
    refine ⟨[], ?_, by simp⟩
    rw [run_pipeline, if_pos (by rw [← he3]; exact hemp), ← he3]
  · rw [if_neg hemp] at h1
    cases hg : group_s3_items_by_day cutoff (sortByKey store) with
    | error k =>
      rw [hg] at h1
      dsimp only at h1
      injection h1 with hev hres
      exact absurd hres (by simp)
    | ok G1 =>
      rw [hg] at h1
      dsimp only at h1
      injection h1 with hev hres
      have hvalid : ∀ it ∈ sortByKey store, classify cutoff it.Key ≠ .invalidDate :=
        group_ok_no_invalid cutoff (sortByKey store) [] G1 hg
      obtain ⟨G1', hG1', hlook⟩ := group_fold_char cutoff (sortByKey store) [] hvalid
      rw [show (group_s3_items_by_day cutoff (sortByKey store) =
          Except.ok G1') from hG1'] at hg
      injection hg with hGG
      subst hGG
      have hgood : goodAssoc G1' :=
        group_fold_good cutoff (sortByKey store) [] G1' ⟨by simp, by simp⟩ hG1'
      have hmemcls := mem_group_classify cutoff (sortByKey store) G1' hG1' hvalid
      have hg1slash : ∀ p ∈ G1', (47 : Nat) ∉ p.1 := by
        intro p hp
        obtain ⟨x, hx⟩ := List.exists_mem_of_ne_nil _ (hgood.2 p hp)
        exact (classify_grouped_facts cutoff x.Key p.1 (hmemcls p hp x hx).2).1
      have hgsub : ∀ q ∈ dropGlacierGroups G1', q ∈ G1' :=
        fun q hq => (List.mem_filter.mp hq).1
      have hrec : processGroups gunzip hashFn contentOf (dropGlacierGroups G1') store =
          ((processGroups gunzip hashFn contentOf (dropGlacierGroups G1') store).1,
           .ok store') := by
        rw [← hres]
      have hkeyinj := nodup_key_inj store hnodup
      by_cases hemp' : store'.isEmpty
      · refine ⟨[], ?_, by simp⟩
        rw [run_pipeline, if_pos hemp']
      · have hvalid' : ∀ it ∈ sortByKey store',
            classify cutoff it.Key ≠ .invalidDate := by
          intro it hit
          have hit' : it ∈ store' := (mem_sortByKey _ _).mp hit
          rcases processGroups_ok_mem gunzip hashFn contentOf hhash
              (dropGlacierGroups G1') store store' _
              (fun q hq => hg1slash q (hgsub q hq)) hrec it hit' with ⟨hin, _⟩ | hagg
          · exact hvalid it ((mem_sortByKey _ _).mpr hin)
          · rw [classify_hasAgg cutoff it.Key hagg]
            simp
        obtain ⟨G2, hG2, hlook2⟩ :=
          group_fold_char cutoff (sortByKey store') [] hvalid'
        have hG2' : group_s3_items_by_day cutoff (sortByKey store') = .ok G2 := hG2
        have hgood2 : goodAssoc G2 :=
          group_fold_good cutoff (sortByKey store') [] G2 ⟨by simp, by simp⟩ hG2
        have hmemcls2 := mem_group_classify cutoff (sortByKey store') G2 hG2 hvalid'
        have hall2 : ∀ p ∈ G2, hasGlacier p.2 = true := by
          intro p hp
          obtain ⟨it0, hit0⟩ := List.exists_mem_of_ne_nil _ (hgood2.2 p hp)
          have hcls0 := hmemcls2 p hp it0 hit0
          have hit0s : it0 ∈ store' := (mem_sortByKey _ _).mp hcls0.1
          rcases processGroups_ok_mem gunzip hashFn contentOf hhash
              (dropGlacierGroups G1') store store' _
              (fun q hq => hg1slash q (hgsub q hq)) hrec it0 hit0s with
            ⟨hin, hnotD⟩ | hagg
          · have hit0g1 : it0 ∈ lookupGroup G1' p.1 := by
              rw [hlook p.1, lookupGroup_nil, List.nil_append]
              exact List.mem_filter.mpr
                ⟨(mem_sortByKey _ _).mpr hin, by simp [hcls0.2]⟩
            have hLne : lookupGroup G1' p.1 ≠ [] :=
              List.ne_nil_of_mem hit0g1
            have hLmem : (p.1, lookupGroup G1' p.1) ∈ G1' :=
              lookup_ne_nil_mem G1' p.1 hLne
            by_cases hgl : hasGlacier (lookupGroup G1' p.1) = true
            · obtain ⟨garch, hgarch, harch⟩ := List.any_eq_true.mp hgl
              have hga_cls := hmemcls (p.1, lookupGroup G1' p.1) hLmem garch hgarch
              have hga_store : garch ∈ store := (mem_sortByKey _ _).mp hga_cls.1
              have hga_notD : ∀ q ∈ dropGlacierGroups G1',
                  garch.Key ∉ q.2.map S3Item.Key := by
                intro q hq hqmem
                obtain ⟨y, hymem, hykey⟩ := List.mem_map.mp hqmem
                have hy := hmemcls q (hgsub q hq) y hymem
                have hy_store : y ∈ store := (mem_sortByKey _ _).mp hy.1
                have hyg : y = garch := hkeyinj y hy_store garch hga_store hykey
                have hq1 : q.1 = p.1 := by
                  have h2 := hy.2
                  rw [hyg, hga_cls.2] at h2
                  exact (Classification.grouped.inj h2).symm
                have hq2 : q.2 = lookupGroup G1' p.1 := by
                  rw [← hq1]
                  exact (mem_nodup_eq_lookup G1' hgood.1 q.1 q.2 (hgsub q hq)).symm
                have := List.mem_filter.mp hq
                rw [hq2] at this
                simp [hgl] at this
              have hsurv : garch ∈ store' :=
                processGroups_preserve gunzip hashFn contentOf
                  (dropGlacierGroups G1') store store' _ hrec garch hga_store hga_notD
              have hing2 : garch ∈ p.2 := by
                rw [← mem_nodup_eq_lookup G2 hgood2.1 p.1 p.2 hp,
                  hlook2 p.1, lookupGroup_nil, List.nil_append]
                exact List.mem_filter.mpr
                  ⟨(mem_sortByKey _ _).mpr hsurv, by simp [hga_cls.2]⟩
              exact List.any_eq_true.mpr ⟨garch, hing2, harch⟩
            · have hings : (p.1, lookupGroup G1' p.1) ∈ dropGlacierGroups G1' :=
                List.mem_filter.mpr ⟨hLmem, by simp [hgl]⟩
              exact absurd (List.mem_map.mpr ⟨it0, hit0g1, rfl⟩)
                (hnotD (p.1, lookupGroup G1' p.1) hings)
          · rw [classify_hasAgg cutoff it0.Key hagg] at hcls0
            exact Classification.noConfusion hcls0.2
        have hdrop2 : dropGlacierGroups G2 = [] := by
          rw [dropGlacierGroups, List.filter_eq_nil_iff]
          intro p hp
          simp [hall2 p hp]
        refine ⟨glacierWarnings G2, ?_, ?_⟩
        · rw [run_pipeline, if_neg hemp', hG2']
          dsimp only
          rw [hdrop2]
          rw [show processGroups gunzip hashFn contentOf [] store' =
            ([], .ok store') from rfl]
          simp
        · intro e he
          obtain ⟨p, hp, hpe⟩ := List.mem_map.mp he
          exact ⟨p.1, glacierKeys p.2, hpe.symm⟩

/-- C6 witness: a store with one unparseable filename; the first run changes
nothing, and the second run returns the same store with no events. -/
theorem C6_second_run_no_changes_witness :
    ∃ ev2, run_pipeline (fun l => l) (fun _ => []) (fun _ => []) 30000000
        [⟨[112, 47, 102, 111, 111, 46, 116, 120, 116], [83]⟩] =
        (ev2, .ok [⟨[112, 47, 102, 111, 111, 46, 116, 120, 116], [83]⟩]) ∧
      ∀ e ∈ ev2, ∃ gid ks, e = REvent.warnGlacier gid ks :=
  C6_second_run_no_changes (fun l => l) (fun _ => []) (fun _ => []) 30000000
    [⟨[112, 47, 102, 111, 111, 46, 116, 120, 116], [83]⟩]
    [⟨[112, 47, 102, 111, 111, 46, 116, 120, 116], [83]⟩] []
    (by decide) (fun l => by simp) rfl

/-- Whether a store event acts on the object with the given key. -/
def touches (e : REvent) (key : Bytes) : Prop :=
  match e with
  | .download k => k = key
  | .upload k => k = key
  | .delete ks => key ∈ ks
  | .warnGlacier _ _ => False

/-- C7: any group with a member in GLACIER or DEEP_ARCHIVE is entirely
excluded from processing: the run's events contain the warning naming exactly
the archival member keys of that group, and no event of the run downloads,
uploads or deletes any member of that group. -/
theorem C7_glacier_group_excluded (gunzip hashFn contentOf : Bytes → Bytes)
    (cutoff : Nat) (store : List S3Item) (ev : List REvent)
    (res : Except Bytes (List S3Item)) (G1 : List (Bytes × List S3Item))
    (hnodup : (store.map S3Item.Key).Nodup)
    (hhash : ∀ l, (47 : Nat) ∉ hashFn l)
    (hrun : run_pipeline gunzip hashFn contentOf cutoff store = (ev, res))
    (hg : group_s3_items_by_day cutoff (sortByKey store) = .ok G1) :
    ∀ p ∈ G1, hasGlacier p.2 = true →
      REvent.warnGlacier p.1 (glacierKeys p.2) ∈ ev ∧
      ∀ it ∈ p.2, ∀ e ∈ ev, ¬ touches e it.Key := by
  rw [run_pipeline] at hrun
  by_cases hemp : store.isEmpty
  · have hstore : store = [] := List.isEmpty_iff.mp hemp
    subst hstore
    have hnil : G1 = [] := by
      injection hg with h
      exact h.symm
    subst hnil
    intro p hp
    simp at hp
  · rw [if_neg hemp, hg] at hrun
    dsimp only at hrun
    injection hrun with hev hres
    subst hev
    have hvalid : ∀ it ∈ sortByKey store, classify cutoff it.Key ≠ .invalidDate :=
      group_ok_no_invalid cutoff (sortByKey store) [] G1 hg
    obtain ⟨G1x, hG1x, hlook⟩ := group_fold_char cutoff (sortByKey store) [] hvalid
    have hxx : (Except.ok G1x : Except Bytes (List (Bytes × List S3Item))) = .ok G1 :=
      (show group_s3_items_by_day cutoff (sortByKey store) = .ok G1x
        from hG1x).symm.trans hg
    injection hxx with hxx2
    rw [hxx2] at hlook
    have hgood : goodAssoc G1 :=
      group_fold_good cutoff (sortByKey store) [] G1 ⟨by simp, by simp⟩ hg
    have hmemcls := mem_group_classify cutoff (sortByKey store) G1 hg hvalid
    have hg1slash : ∀ q ∈ G1, (47 : Nat) ∉ q.1 := by
      intro q hq
      obtain ⟨x, hx⟩ := List.exists_mem_of_ne_nil _ (hgood.2 q hq)
      exact (classify_grouped_facts cutoff x.Key q.1 (hmemcls q hq x hx).2).1
    have hkeyinj := nodup_key_inj store hnodup
    intro p hp hgl
    constructor
    · refine List.mem_append.mpr (Or.inl ?_)
      rw [glacierWarnings]
      exact List.mem_map.mpr ⟨p, List.mem_filter.mpr ⟨hp, by simp [hgl]⟩, rfl⟩
    · intro it hit e he htouch
      have hclsit := hmemcls p hp it hit
      have hitstore : it ∈ store := (mem_sortByKey _ _).mp hclsit.1
      rcases List.mem_append.mp he with hw | hpe
      · obtain ⟨q, hq, hqe⟩ := List.mem_map.mp hw
        rw [← hqe] at htouch
        exact htouch
      · rcases processGroups_events gunzip hashFn contentOf hhash
            (dropGlacierGroups G1) store
            (fun q hq => hg1slash q (List.mem_filter.mp hq).1) e hpe with
          ⟨q, hq, it2, hit2, rfl⟩ | ⟨rk, rfl, hagg⟩ | ⟨q, hq, rfl⟩
        · have h2cls := hmemcls q (List.mem_filter.mp hq).1 it2 hit2
          have h2store : it2 ∈ store := (mem_sortByKey _ _).mp h2cls.1
          have h2it : it2 = it := hkeyinj it2 h2store it hitstore htouch
          have hq1 : q.1 = p.1 := by
            have ha := h2cls.2
            rw [h2it, hclsit.2] at ha
            exact (Classification.grouped.inj ha).symm
          have hq2 : q.2 = p.2 := by
            have e1 := mem_nodup_eq_lookup G1 hgood.1 q.1 q.2 (List.mem_filter.mp hq).1
            have e2 := mem_nodup_eq_lookup G1 hgood.1 p.1 p.2 hp
            rw [← e1, ← e2, hq1]
          have hqf := (List.mem_filter.mp hq).2
          rw [hq2] at hqf
          simp [hgl] at hqf
        · have hun : classify cutoff it.Key = .unrecognized := by
            rw [← htouch]
            exact classify_hasAgg cutoff rk hagg
          rw [hclsit.2] at hun
          exact Classification.noConfusion hun
        · obtain ⟨y, hy, hykey⟩ := List.mem_map.mp htouch
          have hycls := hmemcls q (List.mem_filter.mp hq).1 y hy
          have hystore : y ∈ store := (mem_sortByKey _ _).mp hycls.1
          have hyit : y = it := hkeyinj y hystore it hitstore hykey
          have hq1 : q.1 = p.1 := by
            have ha := hycls.2
            rw [hyit, hclsit.2] at ha
            exact (Classification.grouped.inj ha).symm
          have hq2 : q.2 = p.2 := by
            have e1 := mem_nodup_eq_lookup G1 hgood.1 q.1 q.2 (List.mem_filter.mp hq).1
            have e2 := mem_nodup_eq_lookup G1 hgood.1 p.1 p.2 hp
            rw [← e1, ← e2, hq1]
          have hqf := (List.mem_filter.mp hq).2
          rw [hq2] at hqf
          simp [hgl] at hqf

/-- C7 witness objects: one GLACIER object on a valid log day. -/
def c7key : Bytes :=
  [112, 47, 50, 48, 50, 48, 45, 48, 49, 45, 48, 49, 45, 48, 48,
   45, 48, 48, 45, 48, 48, 45, 65, 66]

def c7day : Bytes := [50, 48, 50, 48, 45, 48, 49, 45, 48, 49]

def c7item : S3Item := ⟨c7key, GLACIER⟩

/-- C7 witness: a run over a single-object GLACIER group emits the warning
naming that key and performs no download, upload or delete on it. -/
theorem C7_glacier_group_excluded_witness :
    ∃ ev res, run_pipeline (fun l => l) (fun _ => []) (fun _ => []) 30000000
        [c7item] = (ev, res) ∧
      REvent.warnGlacier c7day [c7key] ∈ ev ∧
      ∀ e ∈ ev, ¬ touches e c7key := by
  have h := C7_glacier_group_excluded (fun l => l) (fun _ => []) (fun _ => [])
    30000000 [c7item]
    (run_pipeline (fun l => l) (fun _ => []) (fun _ => []) 30000000 [c7item]).1
    (run_pipeline (fun l => l) (fun _ => []) (fun _ => []) 30000000 [c7item]).2
    [(c7day, [c7item])]
    (by decide) (fun l => by simp) rfl rfl
  obtain ⟨hw, hnt⟩ := h (c7day, [c7item]) (List.mem_cons_self _ _) (by decide)
  exact ⟨_, _, rfl, hw, fun e he => hnt c7item (List.mem_cons_self _ _) e he⟩
